import Mathlib

/-!
# Thread pool (`tpool.c`, `tpool.h`): a shallow embedding

The embedding follows `src/src/tpool.c` function by function.

* The heap of work nodes is a partial map from non-null addresses to the
  contents of a `struct tpool_work_struct`; an address that maps to `none`
  is not a live block.
* The pool object `*tm` is the record `tpool`; the mutex and the two
  condition variables carry no data and are represented by the atomicity of
  the modelled sections (each function below is one critical section, or a
  call made outside any critical section that touches only memory owned by
  the calling thread).
* `size_t` counters are natural numbers reduced modulo `2 ^ 64`.
* Dereferencing `NULL`, touching a block that is not live and freeing a
  block that is not live are faults; a faulting call has no result state.
-/

namespace Tpool

/-! ## Data model -/

/-- A non-null address of a heap block. -/
abbrev Addr := Nat

/-- The identity of a non-null `thread_func` function pointer. -/
abbrev thread_func := Nat

/-- An opaque `void *` argument. -/
abbrev Arg := Nat

/-- One past the largest `size_t` value. -/
def SIZE_MOD : Nat := 2 ^ 64

/-- The C expression `x++` / `x + 1` at type `size_t`. -/
def size_inc (x : Nat) : Nat := (x + 1) % SIZE_MOD

/-- The C expression `x--` / `x - 1` at type `size_t`: subtracting one modulo
`2 ^ 64` is adding `2 ^ 64 - 1` modulo `2 ^ 64` (it wraps at zero). -/
def size_dec (x : Nat) : Nat := (SIZE_MOD - 1 + x) % SIZE_MOD

/-- The contents of a `struct tpool_work_struct` (`tpool.h`, lines 28-32). -/
structure tpool_work where
  func : thread_func
  arg : Arg
  next : Option Addr
deriving DecidableEq, Repr

/-- The data fields of a `struct tpool_struct` (`tpool.h`, lines 18-27). -/
structure tpool where
  work_first : Option Addr
  work_last : Option Addr
  working_cnt : Nat
  thread_cnt : Nat
  stop : Bool
deriving DecidableEq, Repr

/-- The heap of work nodes: `none` marks an address that is not a live block. -/
abbrev Heap := Addr → Option tpool_work

/-- The memory the pool functions operate on: the node heap and the pool object. -/
structure Mem where
  heap : Heap
  pool : tpool

/-- A `tpool *` argument: `NULL`, or the address of the pool object in `Mem.pool`. -/
inductive PoolPtr where
  | null
  | valid
deriving DecidableEq, Repr

/-- The ways a call can go wrong instead of returning. -/
inductive Fault where
  | null_deref
  | use_after_free
  | bad_free
  | out_of_fuel
deriving DecidableEq, Repr

/-- Whether a blocking call has returned or is suspended on `working_cond`. -/
inductive Ctl where
  | returned
  | blocked
deriving DecidableEq, Repr

/-! ## The functions of `tpool.c` -/

/-- Lines 9-21. `malloc` is the result the allocator gives when it is called:
`none` for a failed allocation. The result of `malloc` is not checked before
the three field writes. -/
def tpool_work_create (func : Option thread_func) (arg : Arg) (malloc : Option Addr)
    (h : Heap) : Except Fault (Option Addr × Heap) :=
  match func with
  | none => .ok (none, h)
  | some f =>
    match malloc with
    | none => .error .null_deref
    | some w => .ok (some w, Function.update h w (some ⟨f, arg, none⟩))

/-- Lines 24-29. -/
def tpool_work_destroy (work : Option Addr) (h : Heap) : Except Fault Heap :=
  match work with
  | none => .ok h
  | some w =>
    match h w with
    | none => .error .bad_free
    | some _ => .ok (Function.update h w none)

/-- Lines 32-51. -/
def tpool_work_get (tm : PoolPtr) (m : Mem) : Except Fault (Option Addr × Mem) :=
  match tm with
  | .null => .ok (none, m)
  | .valid =>
    match m.pool.work_first with
    | none => .ok (none, m)
    | some w =>
      match m.heap w with
      | none => .error .use_after_free
      | some node =>
        match node.next with
        | none =>
          .ok (some w, { m with pool := { m.pool with work_first := none, work_last := none } })
        | some n =>
          .ok (some w, { m with pool := { m.pool with work_first := some n } })

/-- Lines 180-211. -/
def tpool_add_work (tm : PoolPtr) (func : Option thread_func) (arg : Arg)
    (malloc : Option Addr) (m : Mem) : Except Fault (Bool × Mem) :=
  match tm with
  | .null => .ok (false, m)
  | .valid =>
    match tpool_work_create func arg malloc m.heap with
    | .error e => .error e
    | .ok (none, h) => .ok (false, { m with heap := h })
    | .ok (some w, h) =>
      match m.pool.work_first with
      | none =>
        .ok (true, { heap := h, pool := { m.pool with work_first := some w, work_last := some w } })
      | some _ =>
        match m.pool.work_last with
        | none => .error .null_deref
        | some t =>
          match h t with
          | none => .error .use_after_free
          | some node =>
            .ok (true, { heap := Function.update h t (some { node with next := some w }),
                         pool := { m.pool with work_last := some w } })

/-- The loop condition of `tpool_wait` (lines 222-224): true when the caller
must block on `working_cond`. -/
def tpool_wait_cond (p : tpool) : Bool :=
  p.work_first.isSome || (!p.stop && p.working_cnt != 0) || (p.stop && p.thread_cnt != 0)

/-- Lines 214-231, one evaluation of the loop: either the call blocks on
`working_cond` (to re-evaluate in the state it is woken in) or it returns. -/
def tpool_wait (tm : PoolPtr) (m : Mem) : Ctl × Mem :=
  match tm with
  | .null => (.returned, m)
  | .valid => if tpool_wait_cond m.pool then (.blocked, m) else (.returned, m)

/-- Lines 154-159: the walk that frees every node from `work` on. Each unit of
fuel pays for one iteration of the `while` loop. -/
def tpool_destroy_walk : Nat → Option Addr → Heap → Except Fault Heap
  | _, none, h => .ok h
  | 0, some _, _ => .error .out_of_fuel
  | fuel + 1, some w, h =>
    match h w with
    | none => .error .use_after_free
    | some node =>
      match tpool_work_destroy (some w) h with
      | .error e => .error e
      | .ok h1 => tpool_destroy_walk fuel node.next h1

/-- Lines 145-166: the critical section of `tpool_destroy`. -/
def tpool_destroy_locked (fuel : Nat) (m : Mem) : Except Fault Mem :=
  match tpool_destroy_walk fuel m.pool.work_first m.heap with
  | .error e => .error e
  | .ok h => .ok { heap := h, pool := { m.pool with work_first := none, stop := true } }

/-- Lines 137-177, up to the point where the call either returns or blocks in
its internal `tpool_wait`. When the internal wait returns, the synchronisation
objects and the pool object are released (lines 172-176); that release is not
represented in `Mem`. -/
def tpool_destroy (fuel : Nat) (tm : PoolPtr) (m : Mem) : Except Fault (Ctl × Mem) :=
  match tm with
  | .null => .ok (.returned, m)
  | .valid =>
    match tpool_destroy_locked fuel m with
    | .error e => .error e
    | .ok m1 => .ok (tpool_wait .valid m1)

/-- The control state of one worker thread running `tpool_worker`: before its
critical section at line 61 (or suspended on `work_cond` inside it), between
lines 79 and 90 holding the node it took, or past line 102. -/
inductive Worker where
  | idle
  | running (work : Option Addr)
  | exited
deriving DecidableEq, Repr

/-- Lines 61-79, or lines 61-73 and 99-101: what an idle worker does once it
holds the lock. It suspends on `work_cond` (state unchanged), or leaves the
loop and decrements `thread_cnt`, or takes a node and increments `working_cnt`. -/
def tpool_worker_acquire (m : Mem) : Except Fault (Worker × Mem) :=
  if m.pool.work_first.isNone && !m.pool.stop then
    .ok (.idle, m)
  else if m.pool.stop then
    .ok (.exited, { m with pool := { m.pool with thread_cnt := size_dec m.pool.thread_cnt } })
  else
    match tpool_work_get .valid m with
    | .error e => .error e
    | .ok (work, m1) =>
      .ok (.running work,
           { m1 with pool := { m1.pool with working_cnt := size_inc m1.pool.working_cnt } })

/-- Lines 84-96: the worker runs the action of the node it holds, frees the
node and decrements `working_cnt`. The second component is the task that was
run, if any. -/
def tpool_worker_finish (work : Option Addr) (m : Mem) :
    Except Fault (Option (thread_func × Arg) × Mem) :=
  match work with
  | none =>
    .ok (none, { m with pool := { m.pool with working_cnt := size_dec m.pool.working_cnt } })
  | some w =>
    match m.heap w with
    | none => .error .use_after_free
    | some node =>
      match tpool_work_destroy (some w) m.heap with
      | .error e => .error e
      | .ok h =>
        .ok (some (node.func, node.arg),
             { heap := h, pool := { m.pool with working_cnt := size_dec m.pool.working_cnt } })

/-- Lines 127-130: the loop `for (i = 0; i < num; i++)`, entered at index `i`
with `num - i` iterations left. `pthread_create j` tells whether the call made
in iteration `j` creates a thread. Its result is not checked, and
`pthread_detach` is called either way (it changes nothing that is modelled
here). The result lists the threads created, each at the start of
`tpool_worker`. -/
def tpool_spawn (pthread_create : Nat → Bool) : Nat → Nat → List Worker
  | _, 0 => []
  | i, left + 1 =>
    if pthread_create i then
      Worker.idle :: tpool_spawn pthread_create (i + 1) left
    else
      tpool_spawn pthread_create (i + 1) left

/-- Lines 106-133. `calloc` tells whether the allocation of the pool object
succeeds; its result is not checked before `tm->thread_cnt` is written.
`pthread_create` gives the outcome of each thread creation. The result is the
pool object and the worker threads created. -/
def tpool_create (num : Nat) (calloc : Bool) (pthread_create : Nat → Bool) :
    Except Fault (tpool × List Worker) :=
  let num := if num = 0 then 2 else num
  if calloc then
    .ok ({ work_first := none, work_last := none, working_cnt := 0,
           thread_cnt := num, stop := false },
         tpool_spawn pthread_create 0 num)
  else
    .error .null_deref

/-! ## The pool and its threads as a transition system -/

/-- A task: an action and its argument. -/
abbrev Task := thread_func × Arg

/-- The pool memory, the control state of every worker thread, and three
history logs: the tasks of the submissions that returned `true`, the tasks
whose action has been run, and the tasks whose node `tpool_destroy` freed. -/
structure System where
  mem : Mem
  workers : List Worker
  submitted : List Task
  executed : List Task
  discarded : List Task

/-- The atomic steps of the system. `destroy` is the critical section of
`tpool_destroy`; the wait inside `tpool_destroy` is a `wait` step. -/
inductive Event where
  | submit (func : Option thread_func) (arg : Arg) (malloc : Option Addr)
  | worker (i : Nat)
  | wait
  | destroy (fuel : Nat)
deriving DecidableEq, Repr

/-- The tasks of the nodes linked from `work`, read without changing the heap
(used only to fill the `discarded` log). -/
def queue_items : Nat → Option Addr → Heap → List Task
  | _, none, _ => []
  | 0, some _, _ => []
  | fuel + 1, some w, h =>
    match h w with
    | none => []
    | some node => (node.func, node.arg) :: queue_items fuel node.next h

/-- A call `tpool_add_work(tm, func, arg)` by any thread. -/
def System.submit (s : System) (func : Option thread_func) (arg : Arg)
    (malloc : Option Addr) : Except Fault System :=
  match tpool_add_work .valid func arg malloc s.mem with
  | .error e => .error e
  | .ok (r, m) =>
    match r, func with
    | true, some f => .ok { s with mem := m, submitted := s.submitted ++ [(f, arg)] }
    | _, _ => .ok { s with mem := m }

/-- One atomic section of worker thread `i` of `tpool_worker`. -/
def System.work (s : System) (i : Nat) : Except Fault System :=
  match s.workers.get? i with
  | none => .ok s
  | some .exited => .ok s
  | some .idle =>
    match tpool_worker_acquire s.mem with
    | .error e => .error e
    | .ok (w, m) => .ok { s with mem := m, workers := s.workers.set i w }
  | some (.running work) =>
    match tpool_worker_finish work s.mem with
    | .error e => .error e
    | .ok (ran, m) =>
      .ok { s with mem := m, workers := s.workers.set i .idle,
                   executed := s.executed ++ ran.toList }

/-- One step of the system. -/
def System.step (s : System) : Event → Except Fault System
  | .submit func arg malloc => s.submit func arg malloc
  | .worker i => s.work i
  | .wait => .ok { s with mem := (tpool_wait .valid s.mem).2 }
  | .destroy fuel =>
    match tpool_destroy_locked fuel s.mem with
    | .error e => .error e
    | .ok m =>
      .ok { s with mem := m,
                   discarded := s.discarded ++ queue_items fuel s.mem.pool.work_first s.mem.heap }

/-- The allocator contract: the block `malloc` returns is not a live block. -/
def Event.admissible (s : System) : Event → Prop
  | .submit _ _ (some a) => s.mem.heap a = none
  | _ => True

/-- The system right after `tpool_create(num)` returns, on a heap `h0`. -/
def System.boot (num : Nat) (calloc : Bool) (pthread_create : Nat → Bool) (h0 : Heap) :
    Except Fault System :=
  match tpool_create num calloc pthread_create with
  | .error e => .error e
  | .ok (p, ws) =>
    .ok { mem := { heap := h0, pool := p }, workers := ws,
          submitted := [], executed := [], discarded := [] }

/-- Runs: `Run s tr s1` when the steps `tr`, in order, lead from `s` to `s1`
without a fault. -/
inductive Run : System → List Event → System → Prop where
  | refl (s : System) : Run s [] s
  | step {s s1 s2 : System} {tr : List Event} {e : Event} :
      Run s tr s1 → e.admissible s1 → s1.step e = .ok s2 → Run s (tr ++ [e]) s2

/-- The states reachable from a freshly created pool whose allocation and
thread creations all succeeded; `num` is a `size_t`. -/
def Reachable (tr : List Event) (s : System) : Prop :=
  ∃ num h0 s0, num < SIZE_MOD ∧ System.boot num true (fun _ => true) h0 = .ok s0 ∧
    Run s0 tr s

/-- The task a step submits: a submission succeeds exactly when the action is
not `NULL` and the allocation succeeds. -/
def Event.tasks : Event → List Task
  | .submit (some f) arg (some _) => [(f, arg)]
  | _ => []

/-- The tasks of the successful submissions of a run, in order. -/
def submissions : List Event → List Task
  | [] => []
  | e :: tr => e.tasks ++ submissions tr

/-- An event that is a step of some worker thread or a `tpool_wait`. -/
def Event.isWorkerOrWait : Event → Bool
  | .worker _ => true
  | .wait => true
  | _ => false

/-- An event that is the critical section of `tpool_destroy`. -/
def Event.isDestroy : Event → Bool
  | .destroy _ => true
  | _ => false

/-! ## The queue as a list -/

/-- The address of the first node of a list of queued nodes. -/
def headAddr (l : List (Addr × Task)) : Option Addr := l.head?.map Prod.fst

/-- The address of the last node of a list of queued nodes. -/
def lastAddr (l : List (Addr × Task)) : Option Addr := l.getLast?.map Prod.fst

/-- The heap holds the nodes `l`, each linked to the next and the last one
linked to `NULL`. -/
def Chain (h : Heap) : List (Addr × Task) → Prop
  | [] => True
  | c :: rest => h c.1 = some ⟨c.2.1, c.2.2, headAddr rest⟩ ∧ Chain h rest

/-- The representation invariant of the queue: `work_first` is the first
node of `l` (so it is `NULL` iff `l` is empty), following `next` from it
visits exactly `l`, and `work_last` is the last node visited. -/
def QueueRep (m : Mem) (l : List (Addr × Task)) : Prop :=
  Chain m.heap l ∧ m.pool.work_first = headAddr l ∧ (l ≠ [] → m.pool.work_last = lastAddr l)

/-- Enqueue a list of requests `(address malloc returns, task)` one after another. -/
def enqueue_all : List (Addr × Task) → Mem → Except Fault Mem
  | [], m => .ok m
  | (a, f, x) :: rest, m =>
    match tpool_add_work .valid (some f) x (some a) m with
    | .error e => .error e
    | .ok (_, m1) => enqueue_all rest m1

/-- The task stored in the node at `a`, if `a` is live. -/
def task_at (h : Heap) (a : Addr) : Option Task := (h a).map (fun n => (n.func, n.arg))

/-- Call `tpool_work_get` `n` times; the results are the tasks of the nodes returned. -/
def dequeue_n : Nat → Mem → Except Fault (List (Option Task) × Mem)
  | 0, m => .ok ([], m)
  | n + 1, m =>
    match tpool_work_get .valid m with
    | .error e => .error e
    | .ok (w, m1) =>
      match dequeue_n n m1 with
      | .error e => .error e
      | .ok (outs, m2) => .ok ((w.bind (task_at m1.heap)) :: outs, m2)

/-! ## The invariant of the system -/

/-- The nodes held by running workers. -/
def held (ws : List Worker) : List Addr :=
  ws.filterMap (fun w => match w with | .running (some a) => some a | _ => none)

/-- The tasks in flight: those of the nodes held by running workers. -/
def inflight (s : System) : List Task := (held s.workers).filterMap (task_at s.mem.heap)

/-- The number of workers between lines 79 and 90. -/
def busy (ws : List Worker) : Nat :=
  ws.countP (fun w => match w with | .running _ => true | _ => false)

/-- The number of workers that have not left `tpool_worker`. -/
def alive (ws : List Worker) : Nat :=
  ws.countP (fun w => match w with | .exited => false | _ => true)

/-- The invariant of the system, for the queue contents `l`. -/
structure Inv (s : System) (l : List (Addr × Task)) : Prop where
  rep : QueueRep s.mem l
  held_live : ∀ a ∈ held s.workers, ∃ n, s.mem.heap a = some n
  sep : (held s.workers ++ l.map Prod.fst).Nodup
  no_null : Worker.running none ∉ s.workers
  busy_eq : s.mem.pool.working_cnt = busy s.workers
  alive_eq : s.mem.pool.thread_cnt = alive s.workers
  bound : s.workers.length < SIZE_MOD
  ledger : List.Perm s.submitted
    (s.executed ++ inflight s ++ l.map Prod.snd ++ s.discarded)

/-- What one step `e` from `s` (queue `l`) to `s1` (queue `l1`) guarantees. -/
structure StepFacts (s : System) (l : List (Addr × Task)) (e : Event)
    (s1 : System) (l1 : List (Addr × Task)) : Prop where
  inv : Inv s1 l1
  submitted_eq : s1.submitted = s.submitted ++ e.tasks
  executed_mono : ∃ d, s1.executed = s.executed ++ d
  discarded_mono : ∃ d, s1.discarded = s.discarded ++ d
  stop_mono : s.mem.pool.stop = true → s1.mem.pool.stop = true
  no_start : (s.mem.pool.stop = true ∨ ∀ i, e ≠ Event.worker i) →
    List.Perm (s1.executed ++ inflight s1) (s.executed ++ inflight s)
  no_destroy : e.isDestroy = false →
    s1.discarded = s.discarded ∧ s1.mem.pool.stop = s.mem.pool.stop
  on_destroy : e.isDestroy = true →
    l1 = [] ∧ s1.discarded = s.discarded ++ l.map Prod.snd ∧ s1.mem.pool.stop = true ∧
    s1.mem.pool.work_first = none ∧
    s1.mem.pool.working_cnt = s.mem.pool.working_cnt ∧
    s1.mem.pool.thread_cnt = s.mem.pool.thread_cnt
  frozen : e.isWorkerOrWait = true → s.mem.pool.stop = true →
    l1 = l ∧ s1.mem.pool.work_first = s.mem.pool.work_first ∧
    s1.mem.pool.work_last = s.mem.pool.work_last
  workers_len : s1.workers.length = s.workers.length
  thread_cnt_step : s1.mem.pool.thread_cnt ≤ s.mem.pool.thread_cnt ∧
    s.mem.pool.thread_cnt ≤ s1.mem.pool.thread_cnt + 1
  working_cnt_step : s1.mem.pool.working_cnt ≤ s.mem.pool.working_cnt + 1 ∧
    s.mem.pool.working_cnt ≤ s1.mem.pool.working_cnt + 1
  thread_cnt_running : s.mem.pool.stop = false →
    s1.mem.pool.thread_cnt = s.mem.pool.thread_cnt

/-- What a run `tr` from `s` (queue `l`) to `s1` (queue `l1`) guarantees. -/
structure RunFacts (s : System) (l : List (Addr × Task)) (tr : List Event)
    (s1 : System) (l1 : List (Addr × Task)) : Prop where
  inv : Inv s1 l1
  submitted_eq : s1.submitted = s.submitted ++ submissions tr
  executed_mono : ∃ d, s1.executed = s.executed ++ d
  discarded_mono : ∃ d, s1.discarded = s.discarded ++ d
  stop_mono : s.mem.pool.stop = true → s1.mem.pool.stop = true
  no_start : s.mem.pool.stop = true →
    List.Perm (s1.executed ++ inflight s1) (s.executed ++ inflight s)
  no_destroy : (∀ e ∈ tr, Event.isDestroy e = false) →
    s1.discarded = s.discarded ∧ s1.mem.pool.stop = s.mem.pool.stop
  frozen : (∀ e ∈ tr, Event.isWorkerOrWait e = true) → s.mem.pool.stop = true →
    l1 = l ∧ s1.mem.pool.work_first = s.mem.pool.work_first ∧
    s1.mem.pool.work_last = s.mem.pool.work_last
  workers_len : s1.workers.length = s.workers.length
  thread_cnt_mono : s1.mem.pool.thread_cnt ≤ s.mem.pool.thread_cnt

/-! ## Concrete states used to instantiate the theorems -/

/-- A heap with no live block. -/
def demo_heap : Heap := fun _ => none

/-- The pool memory right after `tpool_create(2)`, on a heap with no live block. -/
def demo_mem : Mem :=
  { heap := demo_heap,
    pool := { work_first := none, work_last := none, working_cnt := 0, thread_cnt := 2,
              stop := false } }

/-- The memory `demo_mem` after the critical section of `tpool_destroy`. -/
def demo_stopped : Mem :=
  { heap := demo_heap,
    pool := { work_first := none, work_last := none, working_cnt := 0, thread_cnt := 2,
              stop := true } }

/-- The heap `demo_heap` with one node at address 1 holding the task `(7, 70)`. -/
def demo_heap1 : Heap := Function.update demo_heap 1 (some ⟨7, 70, none⟩)

/-- The heap `demo_heap1` after the node at address 1 is freed. -/
def demo_heap2 : Heap := Function.update demo_heap1 1 none

/-- The system right after `tpool_create(2)`. -/
def demo_sys0 : System :=
  { mem := demo_mem, workers := [Worker.idle, Worker.idle],
    submitted := [], executed := [], discarded := [] }

/-- The system `demo_sys0` after the task `(7, 70)` is submitted in a node at address 1. -/
def demo_sys1 : System :=
  { mem := { heap := demo_heap1,
             pool := { work_first := some 1, work_last := some 1, working_cnt := 0,
                       thread_cnt := 2, stop := false } },
    workers := [Worker.idle, Worker.idle],
    submitted := [(7, 70)], executed := [], discarded := [] }

/-- The system `demo_sys1` after worker 0 took the node. -/
def demo_sys2 : System :=
  { mem := { heap := demo_heap1,
             pool := { work_first := none, work_last := none, working_cnt := 1,
                       thread_cnt := 2, stop := false } },
    workers := [Worker.running (some 1), Worker.idle],
    submitted := [(7, 70)], executed := [], discarded := [] }

/-- The system `demo_sys2` after worker 0 ran the task and freed the node. -/
def demo_sys3 : System :=
  { mem := { heap := demo_heap2,
             pool := { work_first := none, work_last := none, working_cnt := 0,
                       thread_cnt := 2, stop := false } },
    workers := [Worker.idle, Worker.idle],
    submitted := [(7, 70)], executed := [(7, 70)], discarded := [] }

/-- The system `demo_sys1` after the critical section of `tpool_destroy`. -/
def demo_sys4 : System :=
  { mem := { heap := demo_heap2,
             pool := { work_first := none, work_last := some 1, working_cnt := 0,
                       thread_cnt := 2, stop := true } },
    workers := [Worker.idle, Worker.idle],
    submitted := [(7, 70)], executed := [], discarded := [(7, 70)] }

/-- The system `demo_sys4` after worker 0 left `tpool_worker`. -/
def demo_sys5 : System :=
  { mem := { heap := demo_heap2,
             pool := { work_first := none, work_last := some 1, working_cnt := 0,
                       thread_cnt := 1, stop := true } },
    workers := [Worker.exited, Worker.idle],
    submitted := [(7, 70)], executed := [], discarded := [(7, 70)] }

/-- The system `demo_sys0` after the critical section of `tpool_destroy`. -/
def demo_sys6 : System :=
  { mem := demo_stopped, workers := [Worker.idle, Worker.idle],
    submitted := [], executed := [], discarded := [] }

/-- The system `demo_sys6` after the task `(7, 70)` is submitted in a node at address 1. -/
def demo_sys7 : System :=
  { mem := { heap := demo_heap1,
             pool := { work_first := some 1, work_last := some 1, working_cnt := 0,
                       thread_cnt := 2, stop := true } },
    workers := [Worker.idle, Worker.idle],
    submitted := [(7, 70)], executed := [], discarded := [] }

/-- The system right after `tpool_create(2)` when the second `pthread_create` fails. -/
def demo_sys9 : System :=
  { mem := demo_mem, workers := [Worker.idle],
    submitted := [], executed := [], discarded := [] }

/-- The system `demo_sys9` after the critical section of `tpool_destroy`. -/
def demo_sys10 : System :=
  { mem := demo_stopped, workers := [Worker.idle],
    submitted := [], executed := [], discarded := [] }

/-- The system `demo_sys10` after its only worker left `tpool_worker`. -/
def demo_sys11 : System :=
  { mem := { heap := demo_heap,
             pool := { work_first := none, work_last := none, working_cnt := 0,
                       thread_cnt := 1, stop := true } },
    workers := [Worker.exited],
    submitted := [], executed := [], discarded := [] }

/-- The system `demo_sys7` after worker 0 left `tpool_worker`. -/
def demo_sys8 : System :=
  { mem := { heap := demo_heap1,
             pool := { work_first := some 1, work_last := some 1, working_cnt := 0,
                       thread_cnt := 1, stop := true } },
    workers := [Worker.exited, Worker.idle],
    submitted := [(7, 70)], executed := [], discarded := [] }

/-! ## Lemmas on chains -/

theorem headAddr_nil : headAddr [] = none := rfl

theorem headAddr_cons (c : Addr × Task) (l : List (Addr × Task)) :
    headAddr (c :: l) = some c.1 := rfl

theorem headAddr_eq_none {l : List (Addr × Task)} : headAddr l = none ↔ l = [] := by
  cases l <;> simp [headAddr]

theorem headAddr_append_of_ne_nil {l : List (Addr × Task)} (k : List (Addr × Task))
    (hl : l ≠ []) : headAddr (l ++ k) = headAddr l := by
  cases l with
  | nil => exact absurd rfl hl
  | cons c r => rfl

theorem chain_suffix {h : Heap} :
    ∀ (p q : List (Addr × Task)), Chain h (p ++ q) → Chain h q
  | [], _, hc => hc
  | _ :: p, q, hc => chain_suffix p q hc.2

theorem chain_det {h : Heap} :
    ∀ (l1 l2 : List (Addr × Task)), Chain h l1 → Chain h l2 →
      headAddr l1 = headAddr l2 → l1 = l2
  | [], l2, _, _, hh => by
    have : headAddr l2 = none := by rw [← hh]; rfl
    exact (headAddr_eq_none.1 this).symm
  | c :: r, [], _, _, hh => by simp [headAddr] at hh
  | c :: r, d :: t, h1, h2, hh => by
    have hcd : c.1 = d.1 := by simpa [headAddr] using hh
    have e1 := h1.1
    have e2 := h2.1
    rw [hcd, e2] at e1
    simp only [Option.some.injEq, tpool_work.mk.injEq] at e1
    have hrt : r = t := chain_det r t h1.2 h2.2 e1.2.2.symm
    have : c = d := Prod.ext hcd (Prod.ext e1.1.symm e1.2.1.symm)
    rw [this, hrt]

theorem chain_nodup {h : Heap} :
    ∀ (l : List (Addr × Task)), Chain h l → (l.map Prod.fst).Nodup
  | [], _ => by simp
  | c :: r, hc => by
    rw [List.map_cons, List.nodup_cons]
    refine ⟨?_, chain_nodup r hc.2⟩
    intro hmem
    obtain ⟨d, hd, hdc⟩ := List.mem_map.1 hmem
    obtain ⟨p, q, hpq⟩ := List.append_of_mem hd
    have hq : Chain h (d :: q) := chain_suffix p (d :: q) (hpq ▸ hc.2)
    have heq : c :: r = d :: q := chain_det _ _ hc hq (by simp [headAddr, hdc])
    have hlen : r.length = q.length := by
      have := congrArg List.length heq
      simpa using this
    have : r.length = p.length + (q.length + 1) := by
      rw [hpq]; simp
    omega

theorem chain_frame {h : Heap} (a : Addr) (v : Option tpool_work) :
    ∀ (l : List (Addr × Task)), Chain h l → a ∉ l.map Prod.fst →
      Chain (Function.update h a v) l
  | [], _, _ => trivial
  | c :: r, hc, ha => by
    simp only [List.map_cons, List.mem_cons, not_or] at ha
    refine ⟨?_, chain_frame a v r hc.2 ha.2⟩
    rw [Function.update_noteq (Ne.symm ha.1)]
    exact hc.1

theorem chain_snoc {h : Heap} (w : Addr) (f : thread_func) (x : Arg) :
    ∀ (l : List (Addr × Task)) (t : Addr × Task), Chain h l → (l.map Prod.fst).Nodup →
      w ∉ l.map Prod.fst → l.getLast? = some t →
      Chain (Function.update (Function.update h w (some ⟨f, x, none⟩)) t.1
              (some ⟨t.2.1, t.2.2, some w⟩)) (l ++ [(w, (f, x))])
  | [], _, _, _, _, hl => by simp at hl
  | [c], t, hc, _, hw, hl => by
    have hct : c = t := by simpa using hl
    subst hct
    have hwc : w ≠ c.1 := by simpa [eq_comm] using hw
    refine ⟨?_, ?_, trivial⟩
    · simp [headAddr]
    · show Function.update (Function.update h w _) c.1 _ w = _
      rw [Function.update_noteq hwc, Function.update_same]
      rfl
  | c :: d :: r, t, hc, hn, hw, hl => by
    have hl2 : (d :: r).getLast? = some t := by
      simpa [List.getLast?_cons_cons] using hl
    rw [List.map_cons, List.nodup_cons] at hn
    have hw2 : w ∉ (d :: r).map Prod.fst := fun hm => hw (by
      rw [List.map_cons]; exact List.mem_cons_of_mem _ hm)
    have hwc : c.1 ≠ w := fun e => hw (by rw [List.map_cons, e]; exact List.mem_cons_self _ _)
    have htm : t ∈ d :: r := List.mem_of_getLast?_eq_some hl2
    have hct : c.1 ≠ t.1 := fun e => hn.1 (e ▸ List.mem_map_of_mem Prod.fst htm)
    refine ⟨?_, chain_snoc w f x (d :: r) t hc.2 hn.2 hw2 hl2⟩
    show Function.update (Function.update h w _) t.1 _ c.1 = _
    rw [Function.update_noteq hct, Function.update_noteq hwc]
    exact hc.1

theorem chain_last {h : Heap} :
    ∀ (l : List (Addr × Task)) (t : Addr × Task), Chain h l → l.getLast? = some t →
      h t.1 = some ⟨t.2.1, t.2.2, none⟩
  | [], _, _, hl => by simp at hl
  | [c], t, hc, hl => by
    have hct : c = t := by simpa using hl
    subst hct
    exact hc.1
  | c :: d :: r, t, hc, hl =>
    chain_last (d :: r) t hc.2 (by simpa [List.getLast?_cons_cons] using hl)

theorem chain_live {h : Heap} :
    ∀ (l : List (Addr × Task)) (b : Addr), Chain h l → b ∈ l.map Prod.fst → ∃ n, h b = some n
  | [], _, _, hb => by simp at hb
  | c :: r, b, hc, hb => by
    rw [List.map_cons, List.mem_cons] at hb
    rcases hb with hb | hb
    · exact ⟨_, hb ▸ hc.1⟩
    · exact chain_live r b hc.2 hb

theorem chain_fresh {h : Heap} {l : List (Addr × Task)} {a : Addr} (hc : Chain h l)
    (ha : h a = none) : a ∉ l.map Prod.fst := by
  intro hm
  obtain ⟨n, hn⟩ := chain_live l a hc hm
  rw [ha] at hn
  cases hn

theorem lastAddr_append_singleton (l : List (Addr × Task)) (c : Addr × Task) :
    lastAddr (l ++ [c]) = some c.1 := by
  simp [lastAddr]

/-! ## Enqueue and dequeue on a represented queue -/

theorem add_work_rep {m : Mem} {l : List (Addr × Task)} (f : thread_func) (x : Arg)
    {a : Addr} (hq : QueueRep m l) (ha : m.heap a = none) :
    ∃ m1, tpool_add_work .valid (some f) x (some a) m = .ok (true, m1) ∧
      QueueRep m1 (l ++ [(a, (f, x))]) ∧
      m1.pool.working_cnt = m.pool.working_cnt ∧
      m1.pool.thread_cnt = m.pool.thread_cnt ∧
      m1.pool.stop = m.pool.stop ∧
      (∀ b, b ≠ a → b ∉ l.map Prod.fst → m1.heap b = m.heap b) := by
  obtain ⟨hc, hf, hl⟩ := hq
  cases l with
  | nil =>
    have hf0 : m.pool.work_first = none := hf
    refine ⟨{ heap := Function.update m.heap a (some ⟨f, x, none⟩),
              pool := { m.pool with work_first := some a, work_last := some a } },
      by simp [tpool_add_work, tpool_work_create, hf0], ?_, rfl, rfl, rfl, ?_⟩
    · refine ⟨⟨?_, trivial⟩, rfl, fun _ => rfl⟩
      simp [headAddr]
    · intro b hb _
      exact Function.update_noteq hb _ _
  | cons c r =>
    have hne : c :: r ≠ [] := List.cons_ne_nil _ _
    obtain ⟨t, ht⟩ : ∃ t, (c :: r).getLast? = some t :=
      ⟨(c :: r).getLast hne, List.getLast?_eq_getLast _ hne⟩
    have hf1 : m.pool.work_first = some c.1 := hf
    have hl1 : m.pool.work_last = some t.1 := by rw [hl hne]; simp [lastAddr, ht]
    have hnode := chain_last (c :: r) t hc ht
    have hfresh := chain_fresh hc ha
    have hta : t.1 ≠ a := fun e => by rw [e, ha] at hnode; cases hnode
    have hnode1 : Function.update m.heap a (some ⟨f, x, none⟩) t.1
        = some ⟨t.2.1, t.2.2, none⟩ := by
      rw [Function.update_noteq hta]; exact hnode
    refine ⟨{ heap := Function.update (Function.update m.heap a (some ⟨f, x, none⟩)) t.1
                        (some ⟨t.2.1, t.2.2, some a⟩),
              pool := { m.pool with work_last := some a } },
      by simp [tpool_add_work, tpool_work_create, hf1, hl1, hnode1], ?_, rfl, rfl, rfl, ?_⟩
    · refine ⟨chain_snoc a f x (c :: r) t hc (chain_nodup _ hc) hfresh ht, ?_, fun _ => ?_⟩
      · show m.pool.work_first = _
        rw [hf1]; rfl
      · show some a = _
        rw [lastAddr_append_singleton]
    · intro b hb hbl
      have hbt : b ≠ t.1 := fun e => hbl (e ▸ List.mem_map_of_mem Prod.fst
        (List.mem_of_getLast?_eq_some ht))
      show Function.update (Function.update m.heap a _) t.1 _ b = _
      rw [Function.update_noteq hbt, Function.update_noteq hb]

theorem work_get_nil {m : Mem} (hq : QueueRep m []) :
    tpool_work_get .valid m = .ok (none, m) := by
  have hf : m.pool.work_first = none := hq.2.1
  simp [tpool_work_get, hf]

theorem work_get_cons {m : Mem} {c : Addr × Task} {r : List (Addr × Task)}
    (hq : QueueRep m (c :: r)) :
    ∃ m1, tpool_work_get .valid m = .ok (some c.1, m1) ∧
      m1.heap = m.heap ∧ QueueRep m1 r ∧
      task_at m.heap c.1 = some c.2 ∧
      m1.pool.working_cnt = m.pool.working_cnt ∧
      m1.pool.thread_cnt = m.pool.thread_cnt ∧
      m1.pool.stop = m.pool.stop ∧
      (r = [] → m1.pool.work_first = none ∧ m1.pool.work_last = none) := by
  obtain ⟨hc, hf, hl⟩ := hq
  have hf1 : m.pool.work_first = some c.1 := hf
  have hnode := hc.1
  have htask : task_at m.heap c.1 = some c.2 := by simp [task_at, hnode]
  cases r with
  | nil =>
    have hnode0 : m.heap c.1 = some ⟨c.2.1, c.2.2, none⟩ := hnode
    refine ⟨{ m with pool := { m.pool with work_first := none, work_last := none } },
      by simp [tpool_work_get, hf1, hnode0], rfl, ?_, htask, rfl, rfl, rfl,
      fun _ => ⟨rfl, rfl⟩⟩
    exact ⟨trivial, rfl, fun hne => absurd rfl hne⟩
  | cons d t =>
    have hnode1 : m.heap c.1 = some ⟨c.2.1, c.2.2, some d.1⟩ := hnode
    refine ⟨{ m with pool := { m.pool with work_first := some d.1 } },
      by simp [tpool_work_get, hf1, hnode1], rfl, ?_, htask, rfl, rfl, rfl,
      fun hne => absurd hne (List.cons_ne_nil _ _)⟩
    refine ⟨hc.2, rfl, fun _ => ?_⟩
    show m.pool.work_last = _
    rw [hl (List.cons_ne_nil _ _)]
    simp [lastAddr, List.getLast?_cons_cons]

theorem enqueue_all_rep :
    ∀ (reqs : List (Addr × Task)) (m : Mem) (l : List (Addr × Task)), QueueRep m l →
      (reqs.map Prod.fst).Nodup → (∀ a ∈ reqs.map Prod.fst, m.heap a = none) →
      ∃ m1, enqueue_all reqs m = .ok m1 ∧ QueueRep m1 (l ++ reqs)
  | [], m, l, hq, _, _ => ⟨m, rfl, by simpa using hq⟩
  | (a, f, x) :: rest, m, l, hq, hn, hfr => by
    rw [List.map_cons, List.nodup_cons] at hn
    have ha : m.heap a = none := hfr a (by simp)
    obtain ⟨m1, h1, hq1, -, -, -, hframe⟩ := add_work_rep f x hq ha
    have hfr1 : ∀ b ∈ rest.map Prod.fst, m1.heap b = none := by
      intro b hb
      have hba : b ≠ a := fun e => hn.1 (e ▸ hb)
      have hbm : m.heap b = none := hfr b (by
        rw [List.map_cons]; exact List.mem_cons_of_mem _ hb)
      rw [hframe b hba (chain_fresh hq.1 hbm)]
      exact hbm
    obtain ⟨m2, h2, hq2⟩ := enqueue_all_rep rest m1 (l ++ [(a, (f, x))]) hq1 hn.2 hfr1
    refine ⟨m2, ?_, by simpa using hq2⟩
    simp [enqueue_all, h1, h2]

theorem dequeue_n_rep :
    ∀ (l : List (Addr × Task)) (m : Mem), QueueRep m l →
      ∃ m1, dequeue_n (l.length + 1) m = .ok (l.map (fun c => some c.2) ++ [none], m1) ∧
        QueueRep m1 [] ∧ m1.pool.work_first = none
  | [], m, hq => ⟨m, by simp [dequeue_n, work_get_nil hq], hq, hq.2.1⟩
  | c :: r, m, hq => by
    obtain ⟨m1, h1, hheap, hq1, htask, -⟩ := work_get_cons hq
    obtain ⟨m2, h2, hq2, hf2⟩ := dequeue_n_rep r m1 hq1
    refine ⟨m2, ?_, hq2, hf2⟩
    rw [List.length_cons, dequeue_n, h1]
    simp [h2, hheap, htask]

/-! ## Counters -/

theorem size_inc_of_lt {x : Nat} (h : x + 1 < SIZE_MOD) : size_inc x = x + 1 := by
  unfold size_inc
  exact Nat.mod_eq_of_lt h

theorem size_dec_of_pos {x : Nat} (h0 : 0 < x) (h : x < SIZE_MOD) : size_dec x + 1 = x := by
  unfold size_dec
  have hpos : 0 < SIZE_MOD := Nat.lt_of_le_of_lt (Nat.zero_le _) h
  have e : SIZE_MOD - 1 + x = (x - 1) + SIZE_MOD := by omega
  rw [e, Nat.add_mod_right, Nat.mod_eq_of_lt (by omega)]
  omega

/-! ## Worker lists -/

theorem set_split :
    ∀ (ws : List Worker) (i : Nat) (w : Worker), ws.get? i = some w →
      ∃ pre post, ws = pre ++ w :: post ∧ ∀ v, ws.set i v = pre ++ v :: post
  | [], _, _, h => by simp at h
  | x :: xs, 0, w, h => by
    have hx : x = w := by simpa using h
    exact ⟨[], xs, by simp [hx], fun v => by simp⟩
  | x :: xs, i + 1, w, h => by
    have h1 : xs.get? i = some w := by simpa using h
    obtain ⟨pre, post, e, hset⟩ := set_split xs i w h1
    exact ⟨x :: pre, post, by simp [e], fun v => by simp [hset v]⟩

theorem held_append (a b : List Worker) : held (a ++ b) = held a ++ held b := by
  simp [held, List.filterMap_append]

theorem held_cons_idle (ws : List Worker) : held (Worker.idle :: ws) = held ws := by
  simp [held, List.filterMap_cons]

theorem held_cons_exited (ws : List Worker) : held (Worker.exited :: ws) = held ws := by
  simp [held, List.filterMap_cons]

theorem held_cons_running (a : Addr) (ws : List Worker) :
    held (Worker.running (some a) :: ws) = a :: held ws := by
  simp [held, List.filterMap_cons]

theorem busy_append (a b : List Worker) : busy (a ++ b) = busy a + busy b := by
  simp [busy, List.countP_append]

theorem busy_cons_idle (ws : List Worker) : busy (Worker.idle :: ws) = busy ws := by
  simp [busy, List.countP_cons]

theorem busy_cons_exited (ws : List Worker) : busy (Worker.exited :: ws) = busy ws := by
  simp [busy, List.countP_cons]

theorem busy_cons_running (o : Option Addr) (ws : List Worker) :
    busy (Worker.running o :: ws) = busy ws + 1 := by
  simp [busy, List.countP_cons]

theorem alive_append (a b : List Worker) : alive (a ++ b) = alive a + alive b := by
  simp [alive, List.countP_append]

theorem alive_cons_idle (ws : List Worker) : alive (Worker.idle :: ws) = alive ws + 1 := by
  simp [alive, List.countP_cons]

theorem alive_cons_exited (ws : List Worker) : alive (Worker.exited :: ws) = alive ws := by
  simp [alive, List.countP_cons]

theorem alive_cons_running (o : Option Addr) (ws : List Worker) :
    alive (Worker.running o :: ws) = alive ws + 1 := by
  simp [alive, List.countP_cons]

theorem busy_le_length (ws : List Worker) : busy ws ≤ ws.length := List.countP_le_length _

theorem alive_le_length (ws : List Worker) : alive ws ≤ ws.length := List.countP_le_length _

theorem busy_le_alive : ∀ (ws : List Worker), busy ws ≤ alive ws
  | [] => by simp [busy, alive]
  | .idle :: ws => by
    rw [busy_cons_idle, alive_cons_idle]; exact Nat.le_succ_of_le (busy_le_alive ws)
  | .exited :: ws => by
    rw [busy_cons_exited, alive_cons_exited]; exact busy_le_alive ws
  | .running o :: ws => by
    rw [busy_cons_running, alive_cons_running]; exact Nat.succ_le_succ (busy_le_alive ws)

theorem held_length_eq_busy :
    ∀ (ws : List Worker), Worker.running none ∉ ws → (held ws).length = busy ws
  | [], _ => by simp [held, busy]
  | .idle :: ws, h => by
    rw [held_cons_idle, busy_cons_idle]
    exact held_length_eq_busy ws (fun hm => h (List.mem_cons_of_mem _ hm))
  | .exited :: ws, h => by
    rw [held_cons_exited, busy_cons_exited]
    exact held_length_eq_busy ws (fun hm => h (List.mem_cons_of_mem _ hm))
  | .running none :: ws, h => absurd (List.mem_cons_self _ _) h
  | .running (some a) :: ws, h => by
    rw [held_cons_running, busy_cons_running, List.length_cons,
      held_length_eq_busy ws (fun hm => h (List.mem_cons_of_mem _ hm))]

theorem spawn_succ_true (i n : Nat) :
    tpool_spawn (fun _ => true) i (n + 1)
      = Worker.idle :: tpool_spawn (fun _ => true) (i + 1) n := by
  simp [tpool_spawn]

theorem spawn_length : ∀ (n i : Nat), (tpool_spawn (fun _ => true) i n).length = n
  | 0, _ => rfl
  | n + 1, i => by rw [spawn_succ_true, List.length_cons, spawn_length n]

theorem spawn_all_idle (pc : Nat → Bool) :
    ∀ (n i : Nat) (w : Worker), w ∈ tpool_spawn pc i n → w = Worker.idle
  | 0, _, _, h => by simp [tpool_spawn] at h
  | n + 1, i, w, h => by
    unfold tpool_spawn at h
    split at h
    · rcases List.mem_cons.1 h with h | h
      · exact h
      · exact spawn_all_idle pc n (i + 1) w h
    · exact spawn_all_idle pc n (i + 1) w h

theorem spawn_length_le (pc : Nat → Bool) :
    ∀ (n i : Nat), (tpool_spawn pc i n).length ≤ n
  | 0, _ => Nat.le_refl _
  | n + 1, i => by
    have ih := spawn_length_le pc n (i + 1)
    unfold tpool_spawn
    split
    · rw [List.length_cons]; omega
    · omega

theorem spawn_length_below (m : Nat) :
    ∀ (n i : Nat),
      (tpool_spawn (fun j => decide (j < m)) i n).length = min (i + n) m - min i m
  | 0, i => by simp [tpool_spawn]
  | n + 1, i => by
    have ih := spawn_length_below m n (i + 1)
    unfold tpool_spawn
    by_cases h : i < m
    · simp only [h, decide_True, if_true, List.length_cons]
      rw [ih]
      omega
    · simp only [h, decide_False]
      rw [if_neg (by simp), ih]
      omega

theorem spawn_held : ∀ (n i : Nat), held (tpool_spawn (fun _ => true) i n) = []
  | 0, _ => rfl
  | n + 1, i => by rw [spawn_succ_true, held_cons_idle, spawn_held n]

theorem spawn_busy : ∀ (n i : Nat), busy (tpool_spawn (fun _ => true) i n) = 0
  | 0, _ => rfl
  | n + 1, i => by rw [spawn_succ_true, busy_cons_idle, spawn_busy n]

theorem spawn_alive : ∀ (n i : Nat), alive (tpool_spawn (fun _ => true) i n) = n
  | 0, _ => rfl
  | n + 1, i => by rw [spawn_succ_true, alive_cons_idle, spawn_alive n]

theorem inflight_congr (h1 h2 : Heap) :
    ∀ (as : List Addr), (∀ a ∈ as, h1 a = h2 a) →
      as.filterMap (task_at h1) = as.filterMap (task_at h2)
  | [], _ => rfl
  | a :: as, hh => by
    have ha : task_at h1 a = task_at h2 a := by
      simp [task_at, hh a (List.mem_cons_self _ _)]
    rw [List.filterMap_cons, List.filterMap_cons, ha,
      inflight_congr h1 h2 as (fun b hb => hh b (List.mem_cons_of_mem _ hb))]

theorem inflight_length (h : Heap) :
    ∀ (as : List Addr), (∀ a ∈ as, ∃ n, h a = some n) →
      (as.filterMap (task_at h)).length = as.length
  | [], _ => rfl
  | a :: as, hh => by
    obtain ⟨n, hn⟩ := hh a (List.mem_cons_self _ _)
    have ha : task_at h a = some (n.func, n.arg) := by simp [task_at, hn]
    rw [List.filterMap_cons, ha]
    simp [inflight_length h as (fun b hb => hh b (List.mem_cons_of_mem _ hb))]

/-! ## The invariant holds after `tpool_create` -/

theorem boot_ok (num : Nat) (h0 : Heap) :
    System.boot num true (fun _ => true) h0 =
      .ok { mem := { heap := h0,
                     pool := { work_first := none, work_last := none, working_cnt := 0,
                               thread_cnt := if num = 0 then 2 else num, stop := false } },
            workers := tpool_spawn (fun _ => true) 0 (if num = 0 then 2 else num),
            submitted := [], executed := [], discarded := [] } := by
  simp [System.boot, tpool_create]

theorem boot_inv {num : Nat} {h0 : Heap} {s0 : System} (hn : num < SIZE_MOD)
    (hb : System.boot num true (fun _ => true) h0 = .ok s0) : Inv s0 [] := by
  rw [boot_ok] at hb
  injection hb with hb
  subst hb
  have hk : (if num = 0 then 2 else num) < SIZE_MOD := by
    split
    · simp [SIZE_MOD]
    · exact hn
  refine ⟨⟨trivial, rfl, fun h => absurd rfl h⟩, ?_, ?_, ?_, ?_, ?_, ?_, ?_⟩
  · intro a ha
    simp [spawn_held] at ha
  · simp [spawn_held]
  · intro hm
    cases spawn_all_idle _ _ _ _ hm
  · simp [spawn_busy]
  · simp [spawn_alive]
  · simpa [spawn_length] using hk
  · simp [inflight, spawn_held]

/-! ## Bookkeeping of the task ledger -/

theorem perm_submit {S E I L D : List Task} (t : Task)
    (h : List.Perm S (E ++ I ++ L ++ D)) :
    List.Perm (S ++ [t]) (E ++ I ++ (L ++ [t]) ++ D) := by
  rw [List.perm_iff_count] at h ⊢
  intro x
  have := h x
  simp only [List.count_append] at this ⊢
  omega

theorem perm_take {S E A B R D : List Task} (t : Task)
    (h : List.Perm S (E ++ (A ++ B) ++ ([t] ++ R) ++ D)) :
    List.Perm S (E ++ (A ++ ([t] ++ B)) ++ R ++ D) := by
  rw [List.perm_iff_count] at h ⊢
  intro x
  have := h x
  simp only [List.count_append] at this ⊢
  omega

theorem perm_finish {S E A B L D : List Task} (t : Task)
    (h : List.Perm S (E ++ (A ++ ([t] ++ B)) ++ L ++ D)) :
    List.Perm S ((E ++ [t]) ++ (A ++ B) ++ L ++ D) := by
  rw [List.perm_iff_count] at h ⊢
  intro x
  have := h x
  simp only [List.count_append] at this ⊢
  omega

theorem perm_destroy {S E I L D : List Task}
    (h : List.Perm S (E ++ I ++ L ++ D)) :
    List.Perm S (E ++ I ++ [] ++ (D ++ L)) := by
  rw [List.perm_iff_count] at h ⊢
  intro x
  have := h x
  simp only [List.count_append, List.count_nil] at this ⊢
  omega

theorem perm_move {E A B : List Task} (t : Task) :
    List.Perm ((E ++ [t]) ++ (A ++ B)) (E ++ (A ++ ([t] ++ B))) := by
  rw [List.perm_iff_count]
  intro x
  simp only [List.count_append]
  omega

theorem nodup_insert_mid {A B L : List Addr} (a : Addr)
    (h : (A ++ B ++ ([a] ++ L)).Nodup) : (A ++ ([a] ++ B) ++ L).Nodup := by
  refine (List.Perm.nodup_iff ?_).1 h
  rw [List.perm_iff_count]
  intro x
  simp only [List.count_append]
  omega

theorem nodup_remove_mid {A B L : List Addr} (a : Addr)
    (h : (A ++ ([a] ++ B) ++ L).Nodup) :
    (A ++ B ++ L).Nodup ∧ a ∉ A ∧ a ∉ B ∧ a ∉ L := by
  have h1 : ([a] ++ (A ++ B ++ L)).Nodup := by
    refine (List.Perm.nodup_iff ?_).1 h
    rw [List.perm_iff_count]
    intro x
    simp only [List.count_append]
    omega
  rw [List.singleton_append, List.nodup_cons] at h1
  refine ⟨h1.2, ?_, ?_, ?_⟩ <;> intro hm <;> apply h1.1 <;> simp [hm]

/-! ## The steps preserve the invariant -/

theorem stepFacts_refl {s : System} {l : List (Addr × Task)} (e : Event) (hi : Inv s l)
    (he : e.isDestroy = false) (ht : e.tasks = []) : StepFacts s l e s l where
  inv := hi
  submitted_eq := by rw [ht, List.append_nil]
  executed_mono := ⟨[], by simp⟩
  discarded_mono := ⟨[], by simp⟩
  stop_mono := id
  no_start := fun _ => List.Perm.refl _
  no_destroy := fun _ => ⟨rfl, rfl⟩
  on_destroy := fun h => by rw [he] at h; cases h
  frozen := fun _ _ => ⟨rfl, rfl, rfl⟩
  workers_len := rfl
  thread_cnt_step := ⟨Nat.le_refl _, Nat.le_succ _⟩
  working_cnt_step := ⟨Nat.le_succ _, Nat.le_succ _⟩
  thread_cnt_running := fun _ => rfl

theorem held_not_fresh {s : System} {l : List (Addr × Task)} (hi : Inv s l) {a : Addr}
    (ha : s.mem.heap a = none) : a ∉ held s.workers := by
  intro hm
  obtain ⟨n, hn⟩ := hi.held_live a hm
  rw [ha] at hn
  cases hn

theorem held_not_queued {s : System} {l : List (Addr × Task)} (hi : Inv s l) {b : Addr}
    (hb : b ∈ held s.workers) : b ∉ l.map Prod.fst := by
  intro hm
  exact (List.nodup_append.1 hi.sep).2.2 hb hm

theorem submit_facts {s s1 : System} {l : List (Addr × Task)} {func : Option thread_func}
    {arg : Arg} {malloc : Option Addr} (hi : Inv s l)
    (ha : (Event.submit func arg malloc).admissible s)
    (hs : s.submit func arg malloc = .ok s1) :
    ∃ l1, StepFacts s l (.submit func arg malloc) s1 l1 := by
  cases func with
  | none =>
    have : s1 = s := by
      simp [System.submit, tpool_add_work, tpool_work_create] at hs
      exact hs.symm
    subst this
    exact ⟨l, stepFacts_refl _ hi rfl rfl⟩
  | some f =>
    cases malloc with
    | none => simp [System.submit, tpool_add_work, tpool_work_create] at hs
    | some a =>
      have hfresh : s.mem.heap a = none := ha
      obtain ⟨m1, h1, hq1, hw, ht, hst, hframe⟩ := add_work_rep f arg hi.rep hfresh
      have hs1 : s1 = { s with mem := m1, submitted := s.submitted ++ [(f, arg)] } := by
        simp [System.submit, h1] at hs
        exact hs.symm
      have hheld : ∀ b ∈ held s.workers, m1.heap b = s.mem.heap b := fun b hb =>
        hframe b (fun e => held_not_fresh hi hfresh (e ▸ hb)) (held_not_queued hi hb)
      have hinf : inflight s1 = inflight s := by
        rw [hs1]
        exact inflight_congr _ _ _ hheld
      have hex : s1.executed = s.executed := by rw [hs1]
      refine ⟨l ++ [(a, (f, arg))], ?_⟩
      refine
        { inv := ?_, submitted_eq := (by rw [hs1]; rfl),
          executed_mono := ⟨[], by rw [hs1]; simp⟩,
          discarded_mono := ⟨[], by rw [hs1]; simp⟩,
          stop_mono := fun h => by rw [hs1]; exact hst.trans h,
          no_start := fun _ => by rw [hinf, hex],
          no_destroy := fun _ => by rw [hs1]; exact ⟨rfl, hst⟩,
          on_destroy := fun h => (by simp [Event.isDestroy] at h),
          frozen := fun h => (by simp [Event.isWorkerOrWait] at h),
          workers_len := (by rw [hs1]),
          thread_cnt_step := by rw [hs1]; exact ⟨Nat.le_of_eq ht, by show _ ≤ m1.pool.thread_cnt + 1; omega⟩,
          working_cnt_step := by
            rw [hs1]
            exact ⟨by show m1.pool.working_cnt ≤ _; omega, by show _ ≤ m1.pool.working_cnt + 1; omega⟩,
          thread_cnt_running := fun _ => by rw [hs1]; exact ht }
      refine
        { rep := by rw [hs1]; exact hq1,
          held_live := ?_, sep := ?_, no_null := by rw [hs1]; exact hi.no_null,
          busy_eq := by rw [hs1]; exact hw.trans hi.busy_eq,
          alive_eq := by rw [hs1]; exact ht.trans hi.alive_eq,
          bound := by rw [hs1]; exact hi.bound,
          ledger := ?_ }
      · intro b hb
        rw [hs1] at hb ⊢
        obtain ⟨n, hn⟩ := hi.held_live b hb
        exact ⟨n, (hheld b hb).trans hn⟩
      · rw [hs1]
        show (held s.workers ++ (l ++ [(a, (f, arg))]).map Prod.fst).Nodup
        rw [List.map_append, ← List.append_assoc]
        refine List.Nodup.append hi.sep (by simp) ?_
        intro b hb hb2
        have hba : b = a := by simpa using hb2
        rw [hba] at hb
        rcases List.mem_append.1 hb with h | h
        · exact held_not_fresh hi hfresh h
        · exact chain_fresh hi.rep.1 hfresh h
      · rw [hinf, hex, hs1, List.map_append]
        exact perm_submit (f, arg) hi.ledger

theorem acquire_wait {m : Mem} (hf : m.pool.work_first = none) (hs : m.pool.stop = false) :
    tpool_worker_acquire m = .ok (.idle, m) := by
  simp [tpool_worker_acquire, hf, hs]

theorem acquire_exit {m : Mem} (hs : m.pool.stop = true) :
    tpool_worker_acquire m =
      .ok (.exited, { m with pool := { m.pool with thread_cnt := size_dec m.pool.thread_cnt } }) := by
  simp [tpool_worker_acquire, hs]

theorem acquire_take {m : Mem} {c : Addr × Task} {r : List (Addr × Task)}
    (hq : QueueRep m (c :: r)) (hs : m.pool.stop = false) :
    ∃ m1, tpool_worker_acquire m = .ok (.running (some c.1), m1) ∧
      m1.heap = m.heap ∧ QueueRep m1 r ∧ task_at m.heap c.1 = some c.2 ∧
      m1.pool.working_cnt = size_inc m.pool.working_cnt ∧
      m1.pool.thread_cnt = m.pool.thread_cnt ∧ m1.pool.stop = m.pool.stop := by
  obtain ⟨m1, h1, hheap, hq1, htask, hw, ht, hst, -⟩ := work_get_cons hq
  have hf : m.pool.work_first = some c.1 := hq.2.1
  refine ⟨{ m1 with pool := { m1.pool with working_cnt := size_inc m1.pool.working_cnt } },
    by simp [tpool_worker_acquire, hf, hs, h1], hheap, ⟨hq1.1, hq1.2.1, hq1.2.2⟩, htask, ?_, ht, hst⟩
  show size_inc m1.pool.working_cnt = _
  rw [hw]

theorem finish_some {m : Mem} {a : Addr} {n : tpool_work} (hn : m.heap a = some n) :
    tpool_worker_finish (some a) m =
      .ok (some (n.func, n.arg),
           { heap := Function.update m.heap a none,
             pool := { m.pool with working_cnt := size_dec m.pool.working_cnt } }) := by
  simp [tpool_worker_finish, tpool_work_destroy, hn]

theorem work_exit_facts {mem : Mem} {pre post : List Worker} {su ex di : List Task}
    {l : List (Addr × Task)} {i : Nat}
    (hi : Inv ⟨mem, pre ++ Worker.idle :: post, su, ex, di⟩ l)
    (hstop : mem.pool.stop = true) :
    StepFacts ⟨mem, pre ++ Worker.idle :: post, su, ex, di⟩ l (.worker i)
      ⟨{ mem with pool := { mem.pool with thread_cnt := size_dec mem.pool.thread_cnt } },
        pre ++ Worker.exited :: post, su, ex, di⟩ l := by
  have hheld : held (pre ++ Worker.exited :: post) = held (pre ++ Worker.idle :: post) := by
    simp [held_append, held_cons_idle, held_cons_exited]
  have hbusy : busy (pre ++ Worker.exited :: post) = busy (pre ++ Worker.idle :: post) := by
    simp [busy_append, busy_cons_idle, busy_cons_exited]
  have halive : alive (pre ++ Worker.idle :: post)
      = alive (pre ++ Worker.exited :: post) + 1 := by
    simp [alive_append, alive_cons_idle, alive_cons_exited]; omega
  have hlen : (pre ++ Worker.exited :: post).length = (pre ++ Worker.idle :: post).length := by
    simp
  have htc : mem.pool.thread_cnt = alive (pre ++ Worker.idle :: post) := hi.alive_eq
  have hbound : (pre ++ Worker.idle :: post).length < SIZE_MOD := hi.bound
  have hdec : size_dec mem.pool.thread_cnt + 1 = mem.pool.thread_cnt := by
    apply size_dec_of_pos
    · rw [htc, halive]; omega
    · rw [htc]
      exact Nat.lt_of_le_of_lt (alive_le_length _) hbound
  have hinf : inflight ⟨{ mem with pool :=
        { mem.pool with thread_cnt := size_dec mem.pool.thread_cnt } },
        pre ++ Worker.exited :: post, su, ex, di⟩
      = inflight ⟨mem, pre ++ Worker.idle :: post, su, ex, di⟩ := by
    simp only [inflight, hheld]
  refine
    { inv := ?_, submitted_eq := (by simp [Event.tasks]), executed_mono := ⟨[], by simp⟩,
      discarded_mono := ⟨[], by simp⟩, stop_mono := id,
      no_start := fun _ => (by rw [hinf]),
      no_destroy := fun _ => ⟨rfl, rfl⟩,
      on_destroy := fun h => (by simp [Event.isDestroy] at h),
      frozen := fun _ _ => ⟨rfl, rfl, rfl⟩,
      workers_len := hlen,
      thread_cnt_step := ?_, working_cnt_step := ⟨Nat.le_succ _, Nat.le_succ _⟩,
      thread_cnt_running := fun h => ?_ }
  · refine
      { rep := ⟨hi.rep.1, hi.rep.2.1, hi.rep.2.2⟩,
        held_live := ?_, sep := ?_, no_null := ?_, busy_eq := ?_, alive_eq := ?_,
        bound := ?_, ledger := ?_ }
    · intro a ha
      exact hi.held_live a (hheld ▸ ha)
    · show (held (pre ++ Worker.exited :: post) ++ _).Nodup
      rw [hheld]
      exact hi.sep
    · intro hm
      apply hi.no_null
      simp only [List.mem_append, List.mem_cons] at hm ⊢
      rcases hm with h | h | h
      · exact Or.inl h
      · cases h
      · exact Or.inr (Or.inr h)
    · show mem.pool.working_cnt = busy (pre ++ Worker.exited :: post)
      rw [hbusy]
      exact hi.busy_eq
    · show size_dec mem.pool.thread_cnt = alive (pre ++ Worker.exited :: post)
      omega
    · show (pre ++ Worker.exited :: post).length < SIZE_MOD
      rw [hlen]
      exact hbound
    · rw [hinf]
      exact hi.ledger
  · show size_dec mem.pool.thread_cnt ≤ mem.pool.thread_cnt ∧
      mem.pool.thread_cnt ≤ size_dec mem.pool.thread_cnt + 1
    omega
  · have h1 : mem.pool.stop = false := h
    rw [hstop] at h1
    cases h1

theorem work_take_facts {mem : Mem} {pre post : List Worker} {su ex di : List Task}
    {c : Addr × Task} {r : List (Addr × Task)} {i : Nat} {m1 : Mem}
    (hi : Inv ⟨mem, pre ++ Worker.idle :: post, su, ex, di⟩ (c :: r))
    (hstop : mem.pool.stop = false)
    (hheap : m1.heap = mem.heap) (hq1 : QueueRep m1 r)
    (htask : task_at mem.heap c.1 = some c.2)
    (hw : m1.pool.working_cnt = size_inc mem.pool.working_cnt)
    (ht : m1.pool.thread_cnt = mem.pool.thread_cnt)
    (hst : m1.pool.stop = mem.pool.stop) :
    StepFacts ⟨mem, pre ++ Worker.idle :: post, su, ex, di⟩ (c :: r) (.worker i)
      ⟨m1, pre ++ Worker.running (some c.1) :: post, su, ex, di⟩ r := by
  have hheld0 : held (pre ++ Worker.idle :: post) = held pre ++ held post := by
    simp [held_append, held_cons_idle]
  have hheld1 : held (pre ++ Worker.running (some c.1) :: post)
      = held pre ++ ([c.1] ++ held post) := by
    simp [held_append, held_cons_running]
  have hbusy : busy (pre ++ Worker.running (some c.1) :: post)
      = busy (pre ++ Worker.idle :: post) + 1 := by
    simp [busy_append, busy_cons_idle, busy_cons_running]; omega
  have halive : alive (pre ++ Worker.running (some c.1) :: post)
      = alive (pre ++ Worker.idle :: post) := by
    simp [alive_append, alive_cons_idle, alive_cons_running]
  have hlen : (pre ++ Worker.running (some c.1) :: post).length
      = (pre ++ Worker.idle :: post).length := by
    simp
  have hwc : mem.pool.working_cnt = busy (pre ++ Worker.idle :: post) := hi.busy_eq
  have hbound : (pre ++ Worker.idle :: post).length < SIZE_MOD := hi.bound
  have hlt : busy (pre ++ Worker.idle :: post) < (pre ++ Worker.idle :: post).length := by
    rw [busy_append, busy_cons_idle, List.length_append, List.length_cons]
    have := busy_le_length pre
    have := busy_le_length post
    omega
  have hinc : size_inc mem.pool.working_cnt = mem.pool.working_cnt + 1 := by
    apply size_inc_of_lt
    rw [hwc]; omega
  have hsep : (held pre ++ held post ++ ([c.1] ++ r.map Prod.fst)).Nodup := by
    have := hi.sep
    rw [show held (System.mk mem (pre ++ Worker.idle :: post) su ex di).workers
      = held pre ++ held post from hheld0] at this
    simpa using this
  have hinf0 : inflight ⟨mem, pre ++ Worker.idle :: post, su, ex, di⟩
      = (held pre).filterMap (task_at mem.heap) ++ (held post).filterMap (task_at mem.heap) := by
    simp only [inflight, hheld0, List.filterMap_append]
  have hinf1 : inflight ⟨m1, pre ++ Worker.running (some c.1) :: post, su, ex, di⟩
      = (held pre).filterMap (task_at mem.heap) ++
          ([c.2] ++ (held post).filterMap (task_at mem.heap)) := by
    simp only [inflight, hheld1, List.filterMap_append, hheap]
    simp [List.filterMap_cons, htask]
  refine
    { inv := ?_, submitted_eq := (by simp [Event.tasks]), executed_mono := ⟨[], by simp⟩,
      discarded_mono := ⟨[], by simp⟩, stop_mono := fun h => hst.trans h,
      no_start := fun h => ?_,
      no_destroy := fun _ => ⟨rfl, hst⟩,
      on_destroy := fun h => (by simp [Event.isDestroy] at h),
      frozen := fun _ h => ?_,
      workers_len := hlen,
      thread_cnt_step := ?_, working_cnt_step := ?_,
      thread_cnt_running := fun _ => ht }
  · refine
      { rep := hq1, held_live := ?_, sep := ?_, no_null := ?_, busy_eq := ?_, alive_eq := ?_,
        bound := ?_, ledger := ?_ }
    · intro a ha
      have ha1 : a ∈ held pre ++ ([c.1] ++ held post) := hheld1 ▸ ha
      show ∃ n, m1.heap a = some n
      rw [hheap]
      simp only [List.mem_append, List.mem_singleton] at ha1
      rcases ha1 with h | h | h
      · exact hi.held_live a (by
          show a ∈ held (pre ++ Worker.idle :: post)
          rw [hheld0]; exact List.mem_append_left _ h)
      · rw [h]
        exact ⟨_, hi.rep.1.1⟩
      · exact hi.held_live a (by
          show a ∈ held (pre ++ Worker.idle :: post)
          rw [hheld0]; exact List.mem_append_right _ h)
    · show (held (pre ++ Worker.running (some c.1) :: post) ++ r.map Prod.fst).Nodup
      rw [hheld1]
      exact nodup_insert_mid c.1 hsep
    · intro hm
      apply hi.no_null
      simp only [List.mem_append, List.mem_cons] at hm ⊢
      rcases hm with h | h | h
      · exact Or.inl h
      · cases h
      · exact Or.inr (Or.inr h)
    · show m1.pool.working_cnt = busy (pre ++ Worker.running (some c.1) :: post)
      rw [hbusy, hw, hinc, hwc]
    · show m1.pool.thread_cnt = alive (pre ++ Worker.running (some c.1) :: post)
      rw [halive, ht]
      exact hi.alive_eq
    · show (pre ++ Worker.running (some c.1) :: post).length < SIZE_MOD
      rw [hlen]
      exact hbound
    · rw [hinf1]
      have := hi.ledger
      rw [hinf0] at this
      exact perm_take c.2 (by simpa using this)
  · rcases h with h | h
    · have h1 : mem.pool.stop = true := h
      rw [hstop] at h1
      cases h1
    · exact absurd rfl (h i)
  · have h1 : mem.pool.stop = true := h
    rw [hstop] at h1
    cases h1
  · show m1.pool.thread_cnt ≤ mem.pool.thread_cnt ∧ mem.pool.thread_cnt ≤ m1.pool.thread_cnt + 1
    omega
  · show m1.pool.working_cnt ≤ mem.pool.working_cnt + 1 ∧
      mem.pool.working_cnt ≤ m1.pool.working_cnt + 1
    omega

theorem work_finish_facts {mem : Mem} {pre post : List Worker} {su ex di : List Task}
    {l : List (Addr × Task)} {i : Nat} {a : Addr} {n : tpool_work}
    (hi : Inv ⟨mem, pre ++ Worker.running (some a) :: post, su, ex, di⟩ l)
    (hn : mem.heap a = some n) :
    StepFacts ⟨mem, pre ++ Worker.running (some a) :: post, su, ex, di⟩ l (.worker i)
      (System.mk (Mem.mk (Function.update mem.heap a none)
          { mem.pool with working_cnt := size_dec mem.pool.working_cnt })
        (pre ++ Worker.idle :: post) su (ex ++ [(n.func, n.arg)]) di) l := by
  have hheld0 : held (pre ++ Worker.running (some a) :: post)
      = held pre ++ ([a] ++ held post) := by
    simp [held_append, held_cons_running]
  have hheld1 : held (pre ++ Worker.idle :: post) = held pre ++ held post := by
    simp [held_append, held_cons_idle]
  have hbusy : busy (pre ++ Worker.running (some a) :: post)
      = busy (pre ++ Worker.idle :: post) + 1 := by
    simp [busy_append, busy_cons_idle, busy_cons_running]; omega
  have halive : alive (pre ++ Worker.idle :: post)
      = alive (pre ++ Worker.running (some a) :: post) := by
    simp [alive_append, alive_cons_idle, alive_cons_running]
  have hlen : (pre ++ Worker.idle :: post).length
      = (pre ++ Worker.running (some a) :: post).length := by
    simp
  have hwc : mem.pool.working_cnt = busy (pre ++ Worker.running (some a) :: post) := hi.busy_eq
  have hbound : (pre ++ Worker.running (some a) :: post).length < SIZE_MOD := hi.bound
  have hdec : size_dec mem.pool.working_cnt + 1 = mem.pool.working_cnt := by
    apply size_dec_of_pos
    · rw [hwc, hbusy]; omega
    · rw [hwc]
      exact Nat.lt_of_le_of_lt (busy_le_length _) hbound
  have hsep0 : (held pre ++ ([a] ++ held post) ++ l.map Prod.fst).Nodup := by
    have := hi.sep
    rw [show held (System.mk mem (pre ++ Worker.running (some a) :: post) su ex di).workers
      = held pre ++ ([a] ++ held post) from hheld0] at this
    exact this
  obtain ⟨hsep, hapre, hapost, hal⟩ := nodup_remove_mid a hsep0
  have htask : task_at mem.heap a = some (n.func, n.arg) := by simp [task_at, hn]
  have hfm : ∀ (as : List Addr), a ∉ as →
      as.filterMap (task_at (Function.update mem.heap a none))
        = as.filterMap (task_at mem.heap) := by
    intro as has
    apply inflight_congr
    intro b hb
    exact Function.update_noteq (fun e => has (by rw [← e]; exact hb)) _ _
  have hinf0 : inflight ⟨mem, pre ++ Worker.running (some a) :: post, su, ex, di⟩
      = (held pre).filterMap (task_at mem.heap) ++
          ([(n.func, n.arg)] ++ (held post).filterMap (task_at mem.heap)) := by
    have e : inflight ⟨mem, pre ++ Worker.running (some a) :: post, su, ex, di⟩
        = (held pre ++ ([a] ++ held post)).filterMap (task_at mem.heap) := by
      show (held (pre ++ Worker.running (some a) :: post)).filterMap _ = _
      rw [hheld0]
    rw [e, List.filterMap_append, List.filterMap_append]
    simp [List.filterMap_cons, htask]
  have hinf1 : inflight (System.mk (Mem.mk (Function.update mem.heap a none)
          { mem.pool with working_cnt := size_dec mem.pool.working_cnt })
        (pre ++ Worker.idle :: post) su (ex ++ [(n.func, n.arg)]) di)
      = (held pre).filterMap (task_at mem.heap) ++ (held post).filterMap (task_at mem.heap) := by
    have e : inflight (System.mk (Mem.mk (Function.update mem.heap a none)
          { mem.pool with working_cnt := size_dec mem.pool.working_cnt })
        (pre ++ Worker.idle :: post) su (ex ++ [(n.func, n.arg)]) di)
        = (held pre ++ held post).filterMap (task_at (Function.update mem.heap a none)) := by
      show (held (pre ++ Worker.idle :: post)).filterMap _ = _
      rw [hheld1]
    rw [e, List.filterMap_append, hfm _ hapre, hfm _ hapost]
  refine
    { inv := ?_, submitted_eq := (by simp [Event.tasks]),
      executed_mono := ⟨[(n.func, n.arg)], rfl⟩,
      discarded_mono := ⟨[], by simp⟩, stop_mono := id,
      no_start := fun _ => ?_,
      no_destroy := fun _ => ⟨rfl, rfl⟩,
      on_destroy := fun h => (by simp [Event.isDestroy] at h),
      frozen := fun _ _ => ⟨rfl, rfl, rfl⟩,
      workers_len := hlen,
      thread_cnt_step := ⟨Nat.le_refl _, Nat.le_succ _⟩, working_cnt_step := ?_,
      thread_cnt_running := fun _ => rfl }
  · refine
      { rep := ⟨chain_frame a none l hi.rep.1 hal, hi.rep.2.1, hi.rep.2.2⟩,
        held_live := ?_, sep := ?_, no_null := ?_, busy_eq := ?_, alive_eq := ?_,
        bound := ?_, ledger := ?_ }
    · intro b hb
      have hb1 : b ∈ held pre ++ held post := hheld1 ▸ hb
      have hba : b ≠ a := by
        intro e
        rw [e] at hb1
        rcases List.mem_append.1 hb1 with h | h
        · exact hapre h
        · exact hapost h
      show ∃ k, Function.update mem.heap a none b = some k
      rw [Function.update_noteq hba]
      apply hi.held_live b
      show b ∈ held (pre ++ Worker.running (some a) :: post)
      rw [hheld0]
      rcases List.mem_append.1 hb1 with h | h
      · exact List.mem_append_left _ h
      · exact List.mem_append_right _ (List.mem_append_right _ h)
    · show (held (pre ++ Worker.idle :: post) ++ l.map Prod.fst).Nodup
      rw [hheld1]
      exact hsep
    · intro hm
      apply hi.no_null
      simp only [List.mem_append, List.mem_cons] at hm ⊢
      rcases hm with h | h | h
      · exact Or.inl h
      · cases h
      · exact Or.inr (Or.inr h)
    · show size_dec mem.pool.working_cnt = busy (pre ++ Worker.idle :: post)
      omega
    · show mem.pool.thread_cnt = alive (pre ++ Worker.idle :: post)
      rw [halive]
      exact hi.alive_eq
    · show (pre ++ Worker.idle :: post).length < SIZE_MOD
      rw [hlen]
      exact hbound
    · rw [hinf1]
      have := hi.ledger
      rw [hinf0] at this
      exact perm_finish (n.func, n.arg) this
  · rw [hinf1, hinf0]
    exact perm_move (n.func, n.arg)
  · show size_dec mem.pool.working_cnt ≤ mem.pool.working_cnt + 1 ∧
      mem.pool.working_cnt ≤ size_dec mem.pool.working_cnt + 1
    omega

theorem work_facts {s s1 : System} {l : List (Addr × Task)} {i : Nat} (hi : Inv s l)
    (hs : s.work i = .ok s1) : ∃ l1, StepFacts s l (.worker i) s1 l1 := by
  obtain ⟨mem, ws, su, ex, di⟩ := s
  unfold System.work at hs
  cases hg : ws.get? i with
  | none =>
    simp only [hg] at hs
    injection hs with hs
    subst hs
    exact ⟨l, stepFacts_refl _ hi rfl rfl⟩
  | some w =>
    obtain ⟨pre, post, hws, hset⟩ := set_split _ _ _ hg
    simp only [hg] at hs
    cases w with
    | exited =>
      simp only at hs
      injection hs with hs
      subst hs
      exact ⟨l, stepFacts_refl _ hi rfl rfl⟩
    | idle =>
      simp only at hs
      subst hws
      by_cases hstop : mem.pool.stop = true
      · rw [acquire_exit hstop] at hs
        simp only [hset] at hs
        injection hs with hs
        subst hs
        exact ⟨l, work_exit_facts hi hstop⟩
      · have hstop0 : mem.pool.stop = false := by simpa using hstop
        cases l with
        | nil =>
          have hf : mem.pool.work_first = none := hi.rep.2.1
          rw [acquire_wait hf hstop0] at hs
          simp only [hset] at hs
          injection hs with hs
          subst hs
          exact ⟨[], stepFacts_refl _ hi rfl rfl⟩
        | cons c r =>
          obtain ⟨m1, h1, hheap, hq1, htask, hw, ht, hst⟩ := acquire_take hi.rep hstop0
          rw [h1] at hs
          simp only [hset] at hs
          injection hs with hs
          subst hs
          exact ⟨r, work_take_facts hi hstop0 hheap hq1 htask hw ht hst⟩
    | running o =>
      subst hws
      cases o with
      | none => exact absurd (by simp) hi.no_null
      | some a =>
        obtain ⟨n, hn⟩ := hi.held_live a (by
          show a ∈ held (pre ++ Worker.running (some a) :: post)
          rw [held_append, held_cons_running]
          simp)
        have hn1 : mem.heap a = some n := hn
        simp only at hs
        rw [finish_some hn1] at hs
        simp only [hset, Option.toList] at hs
        injection hs with hs
        subst hs
        exact ⟨l, work_finish_facts hi hn1⟩

/-! ## `tpool_destroy` on a represented queue -/

theorem queue_items_rep {h : Heap} :
    ∀ (l : List (Addr × Task)) (fuel : Nat), Chain h l → l.length ≤ fuel →
      queue_items fuel (headAddr l) h = l.map Prod.snd
  | [], fuel, _, _ => by simp [headAddr, queue_items]
  | c :: r, 0, _, hf => by simp at hf
  | c :: r, fuel + 1, hc, hf => by
    have hn := hc.1
    have ih := queue_items_rep r fuel hc.2 (by simpa using hf)
    simp [headAddr_cons, queue_items, hn, ih]

theorem destroy_walk_ok :
    ∀ (l : List (Addr × Task)) (h : Heap) (fuel : Nat), Chain h l → l.length ≤ fuel →
      ∃ h1, tpool_destroy_walk fuel (headAddr l) h = .ok h1 ∧
        (∀ b, b ∉ l.map Prod.fst → h1 b = h b) ∧ (∀ b ∈ l.map Prod.fst, h1 b = none)
  | [], h, fuel, _, _ => ⟨h, by simp [headAddr, tpool_destroy_walk], fun _ _ => rfl, by simp⟩
  | c :: r, h, 0, _, hf => by simp at hf
  | c :: r, h, fuel + 1, hc, hf => by
    have hn := hc.1
    have hnd := chain_nodup _ hc
    rw [List.map_cons, List.nodup_cons] at hnd
    have hc1 : Chain (Function.update h c.1 none) r := chain_frame c.1 none r hc.2 hnd.1
    obtain ⟨h1, hw, hframe, hgone⟩ :=
      destroy_walk_ok r (Function.update h c.1 none) fuel hc1 (by simpa using hf)
    refine ⟨h1, ?_, ?_, ?_⟩
    · simp [headAddr_cons, tpool_destroy_walk, tpool_work_destroy, hn, hw]
    · intro b hb
      simp only [List.map_cons, List.mem_cons, not_or] at hb
      rw [hframe b hb.2, Function.update_noteq hb.1]
    · intro b hb
      rw [List.map_cons, List.mem_cons] at hb
      by_cases hbr : b ∈ r.map Prod.fst
      · exact hgone b hbr
      · rcases hb with hb | hb
        · rw [hframe b hbr, hb, Function.update_same]
        · exact absurd hb hbr

theorem destroy_walk_short :
    ∀ (l : List (Addr × Task)) (h : Heap) (fuel : Nat), Chain h l → fuel < l.length →
      tpool_destroy_walk fuel (headAddr l) h = .error .out_of_fuel
  | [], _, _, _, hf => by simp at hf
  | c :: r, h, 0, _, _ => by simp [headAddr_cons, tpool_destroy_walk]
  | c :: r, h, fuel + 1, hc, hf => by
    have hn := hc.1
    have hnd := chain_nodup _ hc
    rw [List.map_cons, List.nodup_cons] at hnd
    have hc1 : Chain (Function.update h c.1 none) r := chain_frame c.1 none r hc.2 hnd.1
    have ih := destroy_walk_short r (Function.update h c.1 none) fuel hc1 (by simpa using hf)
    simp [headAddr_cons, tpool_destroy_walk, tpool_work_destroy, hn, ih]

theorem destroy_locked_rep {m : Mem} {l : List (Addr × Task)} {fuel : Nat}
    (hq : QueueRep m l) (hf : l.length ≤ fuel) :
    ∃ m1, tpool_destroy_locked fuel m = .ok m1 ∧ QueueRep m1 [] ∧
      m1.pool.work_first = none ∧ m1.pool.stop = true ∧
      m1.pool.working_cnt = m.pool.working_cnt ∧ m1.pool.thread_cnt = m.pool.thread_cnt ∧
      m1.pool.work_last = m.pool.work_last ∧
      (∀ b, b ∉ l.map Prod.fst → m1.heap b = m.heap b) ∧
      (∀ b ∈ l.map Prod.fst, m1.heap b = none) := by
  obtain ⟨h1, hw, hframe, hgone⟩ := destroy_walk_ok l m.heap fuel hq.1 hf
  have hw1 : tpool_destroy_walk fuel m.pool.work_first m.heap = .ok h1 := by
    rw [hq.2.1]; exact hw
  refine ⟨Mem.mk h1 { m.pool with work_first := none, stop := true }, ?_,
    ⟨trivial, rfl, fun h => absurd rfl h⟩, rfl, rfl, rfl, rfl, rfl, hframe, hgone⟩
  simp [tpool_destroy_locked, hw1]

theorem destroy_locked_short {m : Mem} {l : List (Addr × Task)} {fuel : Nat}
    (hq : QueueRep m l) (hf : fuel < l.length) :
    tpool_destroy_locked fuel m = .error .out_of_fuel := by
  have hw := destroy_walk_short l m.heap fuel hq.1 hf
  rw [← hq.2.1] at hw
  simp [tpool_destroy_locked, hw]

theorem wait_mem (tm : PoolPtr) (m : Mem) : (tpool_wait tm m).2 = m := by
  unfold tpool_wait
  cases tm with
  | null => rfl
  | valid =>
    simp only
    split <;> rfl

theorem destroy_facts {s s1 : System} {l : List (Addr × Task)} {fuel : Nat} (hi : Inv s l)
    (hs : s.step (.destroy fuel) = .ok s1) : StepFacts s l (.destroy fuel) s1 [] := by
  obtain ⟨mem, ws, su, ex, di⟩ := s
  have hrep : QueueRep mem l := hi.rep
  by_cases hf : fuel < l.length
  · have := destroy_locked_short hrep hf
    simp [System.step, this] at hs
  · have hle : l.length ≤ fuel := Nat.le_of_not_lt hf
    obtain ⟨m1, h1, hq1, hfirst, hstop, hw, ht, -, hframe, -⟩ := destroy_locked_rep hrep hle
    have hitems : queue_items fuel mem.pool.work_first mem.heap = l.map Prod.snd := by
      rw [hrep.2.1]; exact queue_items_rep l fuel hrep.1 hle
    simp only [System.step, h1, hitems] at hs
    injection hs with hs
    subst hs
    have hheld : ∀ b ∈ held ws, m1.heap b = mem.heap b := fun b hb =>
      hframe b (held_not_queued hi hb)
    have hinf : inflight (System.mk m1 ws su ex (di ++ l.map Prod.snd))
        = inflight (System.mk mem ws su ex di) := inflight_congr _ _ _ hheld
    refine
      { inv := ?_, submitted_eq := (by simp [Event.tasks]), executed_mono := ⟨[], by simp⟩,
        discarded_mono := ⟨l.map Prod.snd, rfl⟩, stop_mono := fun _ => hstop,
        no_start := fun _ => (by rw [hinf]),
        no_destroy := fun h => (by simp [Event.isDestroy] at h),
        on_destroy := fun _ => ⟨rfl, rfl, hstop, hfirst, hw, ht⟩,
        frozen := fun h => (by simp [Event.isWorkerOrWait] at h),
        workers_len := rfl,
        thread_cnt_step := ?_, working_cnt_step := ?_,
        thread_cnt_running := fun _ => ht }
    · refine
        { rep := hq1, held_live := ?_, sep := ?_, no_null := hi.no_null,
          busy_eq := hw.trans hi.busy_eq, alive_eq := ht.trans hi.alive_eq,
          bound := hi.bound, ledger := ?_ }
      · intro b hb
        obtain ⟨n, hn⟩ := hi.held_live b hb
        exact ⟨n, (hheld b hb).trans hn⟩
      · have h := (List.nodup_append.1 hi.sep).1
        simpa using h
      · rw [hinf]
        exact perm_destroy hi.ledger
    · show m1.pool.thread_cnt ≤ mem.pool.thread_cnt ∧ mem.pool.thread_cnt ≤ m1.pool.thread_cnt + 1
      omega
    · show m1.pool.working_cnt ≤ mem.pool.working_cnt + 1 ∧
        mem.pool.working_cnt ≤ m1.pool.working_cnt + 1
      omega

theorem step_facts {s s1 : System} {l : List (Addr × Task)} {e : Event} (hi : Inv s l)
    (ha : e.admissible s) (hs : s.step e = .ok s1) : ∃ l1, StepFacts s l e s1 l1 := by
  cases e with
  | submit func arg malloc => exact submit_facts hi ha hs
  | worker i => exact work_facts hi hs
  | wait =>
    have : s1 = s := by
      simp only [System.step, wait_mem] at hs
      injection hs with hs
      exact hs.symm
    subst this
    exact ⟨l, stepFacts_refl _ hi rfl rfl⟩
  | destroy fuel => exact ⟨[], destroy_facts hi hs⟩

/-! ## Runs preserve the invariant -/

theorem submissions_append :
    ∀ (a b : List Event), submissions (a ++ b) = submissions a ++ submissions b
  | [], _ => rfl
  | e :: a, b => by
    simp [submissions, submissions_append a b]

theorem run_facts {s s1 : System} {l : List (Addr × Task)} {tr : List Event} (hi : Inv s l)
    (hr : Run s tr s1) : ∃ l1, RunFacts s l tr s1 l1 := by
  induction hr with
  | refl =>
    exact ⟨l,
      { inv := hi, submitted_eq := (by simp [submissions]), executed_mono := ⟨[], by simp⟩,
        discarded_mono := ⟨[], by simp⟩, stop_mono := id,
        no_start := fun _ => List.Perm.refl _,
        no_destroy := fun _ => ⟨rfl, rfl⟩,
        frozen := fun _ _ => ⟨rfl, rfl, rfl⟩,
        workers_len := rfl, thread_cnt_mono := Nat.le_refl _ }⟩
  | @step sa sb tr0 e _ ha hs ih =>
    obtain ⟨l1, f1⟩ := ih
    obtain ⟨l2, f2⟩ := step_facts f1.inv ha hs
    have hd1 := f1.submitted_eq
    have hd2 := f2.submitted_eq
    obtain ⟨x1, hx1⟩ := f1.executed_mono
    obtain ⟨x2, hx2⟩ := f2.executed_mono
    obtain ⟨y1, hy1⟩ := f1.discarded_mono
    obtain ⟨y2, hy2⟩ := f2.discarded_mono
    refine ⟨l2,
      { inv := f2.inv,
        submitted_eq := (by rw [hd2, hd1, List.append_assoc, submissions_append]; simp [submissions]),
        executed_mono := ⟨x1 ++ x2, by rw [hx2, hx1, List.append_assoc]⟩,
        discarded_mono := ⟨y1 ++ y2, by rw [hy2, hy1, List.append_assoc]⟩,
        stop_mono := fun h => f2.stop_mono (f1.stop_mono h),
        no_start := fun h =>
          (f2.no_start (Or.inl (f1.stop_mono h))).trans (f1.no_start h),
        no_destroy := fun h => ?_,
        frozen := fun h hstop => ?_,
        workers_len := f2.workers_len.trans f1.workers_len,
        thread_cnt_mono := Nat.le_trans f2.thread_cnt_step.1 f1.thread_cnt_mono }⟩
    · have h1 := f1.no_destroy (fun x hx => h x (List.mem_append_left _ hx))
      have h2 := f2.no_destroy (h e (by simp))
      exact ⟨h2.1.trans h1.1, h2.2.trans h1.2⟩
    · have h1 := f1.frozen (fun x hx => h x (List.mem_append_left _ hx)) hstop
      have h2 := f2.frozen (h e (by simp)) (f1.stop_mono hstop)
      exact ⟨h2.1.trans h1.1, h2.2.1.trans h1.2.1, h2.2.2.trans h1.2.2⟩

theorem reachable_facts {s : System} {tr : List Event} (hr : Reachable tr s) :
    ∃ s0 l, RunFacts s0 [] tr s l ∧ s0.submitted = [] ∧ s0.executed = [] ∧
      s0.discarded = [] ∧ s0.mem.pool.stop = false := by
  obtain ⟨num, h0, s0, hn, hb, hrun⟩ := hr
  obtain ⟨l, hf⟩ := run_facts (boot_inv hn hb) hrun
  refine ⟨s0, l, hf, ?_⟩
  rw [boot_ok] at hb
  injection hb with hb
  subst hb
  exact ⟨rfl, rfl, rfl, rfl⟩

theorem reachable_inv {s : System} {tr : List Event} (hr : Reachable tr s) : ∃ l, Inv s l := by
  obtain ⟨_, l, hf, -⟩ := reachable_facts hr
  exact ⟨l, hf.inv⟩

theorem reachable_run {s s1 : System} {tr tr1 : List Event} (hr : Reachable tr s)
    (h1 : Run s tr1 s1) : Reachable (tr ++ tr1) s1 := by
  obtain ⟨num, h0, s0, hn, hb, hrun⟩ := hr
  refine ⟨num, h0, s0, hn, hb, ?_⟩
  induction h1 with
  | refl => simpa using hrun
  | step _ ha hs ih =>
    rw [← List.append_assoc]
    exact Run.step ih ha hs

/-! ## The claims C1 to C10 -/

theorem queueRep_unique {m : Mem} {l1 l2 : List (Addr × Task)} (h1 : QueueRep m l1)
    (h2 : QueueRep m l2) : l1 = l2 :=
  chain_det l1 l2 h1.1 h2.1 (h1.2.1.symm.trans h2.2.1)

theorem queueRep_demo_mem : QueueRep demo_mem [] :=
  ⟨trivial, rfl, fun h => absurd rfl h⟩

theorem queueRep_demo_stopped : QueueRep demo_stopped [] :=
  ⟨trivial, rfl, fun h => absurd rfl h⟩

/-- C1: on a memory whose queue represents the list `l`, `work_first` is `NULL`
iff `l` is empty; the enqueue step of `tpool_add_work` appends the new node at
the end of `l`; `tpool_work_get` returns `NULL` and changes nothing when `l` is
empty, and otherwise removes and returns the first node of `l`, resetting
`work_first` and `work_last` to `NULL` when that was the only node; both keep
the representation invariant. Hence enqueuing any requests onto an empty queue
and then dequeuing returns their tasks in submission order and then `NULL`. -/
theorem queue_is_fifo (m : Mem) (l : List (Addr × Task)) (hq : QueueRep m l) :
    (m.pool.work_first = none ↔ l = []) ∧
    (∀ (f : thread_func) (x : Arg) (a : Addr), m.heap a = none →
      ∃ m1, tpool_add_work .valid (some f) x (some a) m = .ok (true, m1) ∧
        QueueRep m1 (l ++ [(a, (f, x))])) ∧
    (l = [] → tpool_work_get .valid m = .ok (none, m)) ∧
    (∀ (c : Addr × Task) (r : List (Addr × Task)), l = c :: r →
      ∃ m1, tpool_work_get .valid m = .ok (some c.1, m1) ∧
        task_at m1.heap c.1 = some c.2 ∧ QueueRep m1 r ∧
        (r = [] → m1.pool.work_first = none ∧ m1.pool.work_last = none)) ∧
    (l = [] → ∀ (reqs : List (Addr × Task)), (reqs.map Prod.fst).Nodup →
      (∀ a ∈ reqs.map Prod.fst, m.heap a = none) →
      ∃ m1 m2, enqueue_all reqs m = .ok m1 ∧ QueueRep m1 reqs ∧
        dequeue_n (reqs.length + 1) m1
          = .ok (reqs.map (fun c => some c.2) ++ [none], m2) ∧
        QueueRep m2 []) := by
  refine ⟨?_, ?_, ?_, ?_, ?_⟩
  · rw [hq.2.1]
    exact headAddr_eq_none
  · intro f x a ha
    obtain ⟨m1, h1, hq1, -⟩ := add_work_rep f x hq ha
    exact ⟨m1, h1, hq1⟩
  · intro hl
    subst hl
    exact work_get_nil hq
  · intro c r hl
    subst hl
    obtain ⟨m1, h1, hheap, hq1, htask, -, -, -, hlast⟩ := work_get_cons hq
    exact ⟨m1, h1, by rw [hheap]; exact htask, hq1, hlast⟩
  · intro hl reqs hn hfr
    subst hl
    obtain ⟨m1, h1, hq1⟩ := enqueue_all_rep reqs m [] hq hn hfr
    have hq1r : QueueRep m1 reqs := by simpa using hq1
    obtain ⟨m2, h2, hq2, -⟩ := dequeue_n_rep reqs m1 hq1r
    exact ⟨m1, m2, h1, hq1r, h2, hq2⟩

/-- On the fresh pool: three requests, two of them with the same task, come
back in submission order, followed by `NULL`. -/
theorem queue_is_fifo_witness :
    QueueRep demo_mem [] ∧
    ∃ m1 m2, enqueue_all [(1, (7, 70)), (2, (8, 80)), (3, (7, 70))] demo_mem = .ok m1 ∧
      QueueRep m1 [(1, (7, 70)), (2, (8, 80)), (3, (7, 70))] ∧
      dequeue_n 4 m1 = .ok ([some (7, 70), some (8, 80), some (7, 70), none], m2) ∧
      QueueRep m2 [] :=
  ⟨queueRep_demo_mem,
    (queue_is_fifo demo_mem [] queueRep_demo_mem).2.2.2.2 rfl
      [(1, (7, 70)), (2, (8, 80)), (3, (7, 70))] (by decide) (fun _ _ => rfl)⟩

/-- C2: `tpool_wait` returns in a pool state exactly when the queue is empty,
and (`stop` or `working_cnt = 0`), and (not `stop` or `thread_cnt = 0`); that
is, exactly when the queue is empty and either the pool is running with no
worker busy or it is stopped with no worker left. It changes no field of the
state, so a second call in the same state gives the same outcome. -/
theorem wait_exit_iff (m : Mem) :
    ((tpool_wait .valid m).1 = .returned ↔
      (m.pool.work_first = none ∧ (m.pool.stop = true ∨ m.pool.working_cnt = 0) ∧
        (m.pool.stop = false ∨ m.pool.thread_cnt = 0))) ∧
    ((tpool_wait .valid m).1 = .returned ↔
      (m.pool.work_first = none ∧
        ((m.pool.stop = false ∧ m.pool.working_cnt = 0) ∨
          (m.pool.stop = true ∧ m.pool.thread_cnt = 0)))) ∧
    ((tpool_wait .valid m).1 = .blocked ↔ tpool_wait_cond m.pool = true) ∧
    (tpool_wait .valid m).2 = m ∧
    tpool_wait .valid (tpool_wait .valid m).2 = tpool_wait .valid m := by
  obtain ⟨heap, ⟨first, last, wc, tc, stop⟩⟩ := m
  refine ⟨?_, ?_, ?_, wait_mem _ _, by rw [wait_mem]⟩
  · cases first <;> cases stop <;> by_cases hw : wc = 0 <;> by_cases ht : tc = 0 <;>
      simp [tpool_wait, tpool_wait_cond, hw, ht]
  · cases first <;> cases stop <;> by_cases hw : wc = 0 <;> by_cases ht : tc = 0 <;>
      simp [tpool_wait, tpool_wait_cond, hw, ht]
  · cases first <;> cases stop <;> by_cases hw : wc = 0 <;> by_cases ht : tc = 0 <;>
      simp [tpool_wait, tpool_wait_cond, hw, ht]

/-- C3 (the code at the failing input): when the action is not `NULL` and
`malloc` fails, `tpool_work_create` writes `work->func` through the `NULL`
result, so neither it nor `tpool_add_work` returns; in particular
`tpool_add_work` does not return `false`. -/
theorem add_work_alloc_failure_faults (m : Mem) (f : thread_func) (x : Arg) :
    tpool_work_create (some f) x none m.heap = .error .null_deref ∧
    tpool_add_work .valid (some f) x none m = .error .null_deref ∧
    tpool_add_work .valid (some f) x none m ≠ .ok (false, m) := by
  refine ⟨rfl, rfl, ?_⟩
  intro h
  simp [tpool_add_work, tpool_work_create] at h

/-- C4: `tpool_add_work` with a `NULL` pool returns `false`; with a `NULL`
action it returns `false`, allocates nothing and leaves the whole memory
unchanged; `tpool_wait` and `tpool_destroy` with a `NULL` pool return at once
and change nothing. With a pool whose queue represents `l`, an action that is
not `NULL` and a successful allocation, `tpool_add_work` returns `true`, the
queue becomes `l` followed by the new node, and the counters and the stop flag
are unchanged. -/
theorem invalid_arguments_rejected (m : Mem) :
    (∀ func arg malloc, tpool_add_work .null func arg malloc m = .ok (false, m)) ∧
    (∀ arg malloc, tpool_add_work .valid none arg malloc m = .ok (false, m)) ∧
    (∀ arg malloc, tpool_work_create none arg malloc m.heap = .ok (none, m.heap)) ∧
    tpool_wait .null m = (.returned, m) ∧
    (∀ fuel, tpool_destroy fuel .null m = .ok (.returned, m)) ∧
    (∀ (l : List (Addr × Task)) (f : thread_func) (x : Arg) (a : Addr),
      QueueRep m l → m.heap a = none →
      ∃ m1, tpool_add_work .valid (some f) x (some a) m = .ok (true, m1) ∧
        QueueRep m1 (l ++ [(a, (f, x))]) ∧
        m1.pool.working_cnt = m.pool.working_cnt ∧
        m1.pool.thread_cnt = m.pool.thread_cnt ∧ m1.pool.stop = m.pool.stop) := by
  refine ⟨fun _ _ _ => rfl, fun _ _ => rfl, fun _ _ => rfl, rfl, fun _ => rfl, ?_⟩
  intro l f x a hq ha
  obtain ⟨m1, h1, hq1, hw, ht, hs, -⟩ := add_work_rep f x hq ha
  exact ⟨m1, h1, hq1, hw, ht, hs⟩

/-- On the fresh pool: a submission in a fresh block at address 5 succeeds. -/
theorem invalid_arguments_rejected_witness :
    QueueRep demo_mem [] ∧ demo_mem.heap 5 = none ∧
    ∃ m1, tpool_add_work .valid (some 7) 70 (some 5) demo_mem = .ok (true, m1) ∧
      QueueRep m1 ([] ++ [(5, (7, 70))]) ∧
      m1.pool.working_cnt = demo_mem.pool.working_cnt ∧
      m1.pool.thread_cnt = demo_mem.pool.thread_cnt ∧ m1.pool.stop = demo_mem.pool.stop :=
  ⟨queueRep_demo_mem, rfl,
    (invalid_arguments_rejected demo_mem).2.2.2.2.2 [] 7 70 5 queueRep_demo_mem rfl⟩

/-- C7 (counterexample): in the state right after the critical section of
`tpool_destroy` on a fresh pool, where `stop` is true, `tpool_add_work` with an
action that is not `NULL` returns `true` and changes `work_first`. -/
theorem add_work_after_stop_counterexample :
    demo_stopped.pool.stop = true ∧
    ¬ (∀ r m1, tpool_add_work .valid (some 7) 70 (some 1) demo_stopped = .ok (r, m1) →
        r = false ∨ m1.pool = demo_stopped.pool) := by
  refine ⟨rfl, ?_⟩
  intro h
  have h1 := h true
    { heap := Function.update demo_heap 1 (some ⟨7, 70, none⟩),
      pool := { demo_stopped.pool with work_first := some 1, work_last := some 1 } } rfl
  rcases h1 with h1 | h1
  · cases h1
  · have := congrArg tpool.work_first h1
    simp [demo_stopped] at this

/-- C7 (amended): `tpool_add_work` does not consult `stop`. In every pool state
with `stop` true whose queue represents `l`, with an action that is not `NULL`
and a successful allocation, it returns `true` and appends the new node to the
queue, which is then not empty; `stop` stays true and the counters are
unchanged. -/
theorem add_work_ignores_stop (m : Mem) (l : List (Addr × Task)) (f : thread_func)
    (x : Arg) (a : Addr) (hq : QueueRep m l) (ha : m.heap a = none)
    (hs : m.pool.stop = true) :
    ∃ m1, tpool_add_work .valid (some f) x (some a) m = .ok (true, m1) ∧
      QueueRep m1 (l ++ [(a, (f, x))]) ∧ m1.pool.work_first ≠ none ∧
      m1.pool.stop = true ∧ m1.pool.working_cnt = m.pool.working_cnt ∧
      m1.pool.thread_cnt = m.pool.thread_cnt := by
  obtain ⟨m1, h1, hq1, hw, ht, hst, -⟩ := add_work_rep f x hq ha
  refine ⟨m1, h1, hq1, ?_, hst.trans hs, hw, ht⟩
  rw [hq1.2.1]
  intro h
  have := headAddr_eq_none.1 h
  simp at this

/-- On the stopped fresh pool: a submission in a fresh block at address 1 succeeds. -/
theorem add_work_ignores_stop_witness :
    QueueRep demo_stopped [] ∧ demo_stopped.heap 1 = none ∧ demo_stopped.pool.stop = true ∧
    ∃ m1, tpool_add_work .valid (some 7) 70 (some 1) demo_stopped = .ok (true, m1) ∧
      QueueRep m1 ([] ++ [(1, (7, 70))]) ∧ m1.pool.work_first ≠ none ∧
      m1.pool.stop = true ∧ m1.pool.working_cnt = demo_stopped.pool.working_cnt ∧
      m1.pool.thread_cnt = demo_stopped.pool.thread_cnt :=
  ⟨queueRep_demo_stopped, rfl, rfl,
    add_work_ignores_stop demo_stopped [] 7 70 1 queueRep_demo_stopped rfl rfl⟩

/-- C8 (the code at the failing inputs): `tpool_create` writes `thread_cnt`
before the loop and never looks at the result of `calloc` or `pthread_create`.
When the pool object is allocated, the pool has `thread_cnt` equal to 2 if
`n = 0` and to `n` otherwise, `work_first` and `work_last` `NULL`, `stop` false
and `working_cnt` zero, whatever `pthread_create` does; at most `thread_cnt`
workers exist, each at the start of `tpool_worker`, and exactly `thread_cnt`
when every creation succeeds; `tpool_create 0` is `tpool_create 2`. But when
the second of two creations fails there is one worker for `thread_cnt = 2`;
when creations fail from the 128th on there are 127 workers for
`thread_cnt = 2000`; and when `calloc` fails the call faults and returns no
pool. After the creation with one worker, the critical section of
`tpool_destroy` and the exit of that worker leave `thread_cnt = 1` with no
worker left: `tpool_wait` blocks and no worker step changes the state. -/
theorem create_ignores_creation_failure :
    (∀ (n : Nat) (pc : Nat → Bool), ∃ ws,
      tpool_create n true pc
        = .ok ({ work_first := none, work_last := none, working_cnt := 0,
                 thread_cnt := if n = 0 then 2 else n, stop := false }, ws) ∧
      ws.length ≤ (if n = 0 then 2 else n) ∧ (∀ w ∈ ws, w = Worker.idle)) ∧
    (∀ (n : Nat), ∃ p ws, tpool_create n true (fun _ => true) = .ok (p, ws) ∧
      ws.length = p.thread_cnt ∧ alive ws = p.thread_cnt) ∧
    (∀ calloc pc, tpool_create 0 calloc pc = tpool_create 2 calloc pc) ∧
    (∃ p ws, tpool_create 2 true (fun i => decide (i < 1)) = .ok (p, ws) ∧
      p.thread_cnt = 2 ∧ ws.length = 1) ∧
    (∃ p ws, tpool_create 2000 true (fun i => decide (i < 127)) = .ok (p, ws) ∧
      p.thread_cnt = 2000 ∧ ws.length = 127) ∧
    (∀ (n : Nat) (pc : Nat → Bool), tpool_create n false pc = .error .null_deref) ∧
    (System.boot 2 true (fun i => decide (i < 1)) demo_heap = .ok demo_sys9 ∧
      demo_sys9.step (.destroy 0) = .ok demo_sys10 ∧
      demo_sys10.step (.worker 0) = .ok demo_sys11 ∧
      demo_sys11.workers = [Worker.exited] ∧ demo_sys11.mem.pool.thread_cnt = 1 ∧
      (tpool_wait .valid demo_sys11.mem).1 = .blocked ∧
      (∀ i, demo_sys11.step (.worker i) = .ok demo_sys11)) := by
  refine ⟨?_, ?_, fun _ _ => rfl, ⟨_, _, rfl, rfl, rfl⟩, ⟨_, _, rfl, rfl, ?_⟩,
    fun _ _ => rfl, rfl, rfl, rfl, rfl, rfl, rfl, ?_⟩
  · intro n pc
    exact ⟨_, rfl, spawn_length_le pc _ _, spawn_all_idle pc _ _⟩
  · intro n
    exact ⟨_, _, rfl, spawn_length _ _, spawn_alive _ _⟩
  · rw [spawn_length_below]
    decide
  · intro i
    cases i with
    | zero => rfl
    | succ k => rfl

theorem busy_pos {ws : List Worker} {i : Nat} {o : Option Addr}
    (h : ws.get? i = some (Worker.running o)) : 0 < busy ws := by
  obtain ⟨pre, post, e, -⟩ := set_split _ _ _ h
  rw [e, busy_append, busy_cons_running]
  omega

theorem alive_pos_of_idle {ws : List Worker} {i : Nat}
    (h : ws.get? i = some Worker.idle) : 0 < alive ws := by
  obtain ⟨pre, post, e, -⟩ := set_split _ _ _ h
  rw [e, alive_append, alive_cons_idle]
  omega

theorem inflight_length_eq {s : System} {l : List (Addr × Task)} (hi : Inv s l) :
    (inflight s).length = s.mem.pool.working_cnt := by
  rw [hi.busy_eq, ← held_length_eq_busy _ hi.no_null]
  exact inflight_length _ _ hi.held_live

/-- C5: in every state reached from a freshly created pool by submissions,
worker steps and waits, with no `tpool_destroy`, the tasks of the successful
submissions are, counted with multiplicity, exactly the executed tasks, the
tasks in flight and the queued tasks; the number in flight is `working_cnt`;
when the submitted tasks are pairwise distinct no task occurs twice among the
executed, in-flight and queued ones. Consequently, whenever `tpool_wait` would
return, the executed tasks are exactly the submitted ones and their number is
the number of successful submissions. -/
theorem every_task_runs_once (tr : List Event) (s : System) (hr : Reachable tr s)
    (hnd : ∀ e ∈ tr, Event.isDestroy e = false) :
    ∃ l, QueueRep s.mem l ∧
      s.submitted = submissions tr ∧
      List.Perm s.submitted (s.executed ++ inflight s ++ l.map Prod.snd) ∧
      (inflight s).length = s.mem.pool.working_cnt ∧
      (s.submitted.Nodup → (s.executed ++ inflight s ++ l.map Prod.snd).Nodup) ∧
      ((tpool_wait .valid s.mem).1 = .returned →
        List.Perm s.executed s.submitted ∧
        s.executed.length = (submissions tr).length) := by
  obtain ⟨s0, l, hf, hsu, -, hdi, hst⟩ := reachable_facts hr
  obtain ⟨hd, hstop⟩ := hf.no_destroy hnd
  have hsub : s.submitted = submissions tr := by
    rw [hf.submitted_eq, hsu, List.nil_append]
  have hledger : List.Perm s.submitted (s.executed ++ inflight s ++ l.map Prod.snd) := by
    have := hf.inv.ledger
    rw [hd, hdi, List.append_nil] at this
    exact this
  have hlen := inflight_length_eq hf.inv
  refine ⟨l, hf.inv.rep, hsub, hledger, hlen, fun hn => (List.Perm.nodup_iff hledger).1 hn, ?_⟩
  intro hw
  obtain ⟨hfirst, hbusy, -⟩ := (wait_exit_iff s.mem).1.1 hw
  have hl : l = [] := headAddr_eq_none.1 (hf.inv.rep.2.1 ▸ hfirst)
  have hwc : s.mem.pool.working_cnt = 0 := by
    rcases hbusy with h | h
    · rw [hstop, hst] at h
      cases h
    · exact h
  have hinf : inflight s = [] := List.length_eq_zero.1 (hlen.trans hwc)
  have hp : List.Perm s.executed s.submitted := by
    have := hledger
    rw [hl, hinf] at this
    simpa using this.symm
  exact ⟨hp, by rw [← hsub]; exact hp.length_eq⟩

/-- C6: on a pool whose queue represents `l`, the critical section of
`tpool_destroy` (given fuel for `l`) frees every node of `l`, leaves
`work_first` `NULL` and `stop` true, and keeps `working_cnt` and `thread_cnt`;
a worker that reaches its stop check with `stop` true leaves the loop without
touching the queue, whatever `work_first` is. Hence after that critical
section, in every later state, the executed tasks are among those executed or
in flight before it, their number is at most the number submitted before it,
and (for pairwise distinct submitted tasks) no task that was in the queue is
ever executed. -/
theorem destroy_discards_queue :
    (∀ (m : Mem) (l : List (Addr × Task)) (fuel : Nat), QueueRep m l → l.length ≤ fuel →
      ∃ m1, tpool_destroy_locked fuel m = .ok m1 ∧ QueueRep m1 [] ∧
        m1.pool.work_first = none ∧ m1.pool.stop = true ∧
        m1.pool.working_cnt = m.pool.working_cnt ∧
        m1.pool.thread_cnt = m.pool.thread_cnt ∧
        (∀ b ∈ l.map Prod.fst, m1.heap b = none)) ∧
    (∀ (m : Mem), m.pool.stop = true →
      ∃ m1, tpool_worker_acquire m = .ok (.exited, m1) ∧ m1.heap = m.heap ∧
        m1.pool.work_first = m.pool.work_first ∧ m1.pool.work_last = m.pool.work_last ∧
        m1.pool.working_cnt = m.pool.working_cnt ∧ m1.pool.stop = true) ∧
    (∀ (tr tr1 : List Event) (s s0 s1 : System) (l : List (Addr × Task)) (fuel : Nat),
      Reachable tr s → QueueRep s.mem l → s.step (.destroy fuel) = .ok s0 → Run s0 tr1 s1 →
      s1.mem.pool.stop = true ∧
      List.Perm (s1.executed ++ inflight s1) (s.executed ++ inflight s) ∧
      s1.executed.length ≤ s.submitted.length ∧
      (s1.submitted.Nodup → ∀ t ∈ l.map Prod.snd, t ∉ s1.executed)) := by
  refine ⟨?_, ?_, ?_⟩
  · intro m l fuel hq hf
    obtain ⟨m1, h1, hq1, hfirst, hstop, hw, ht, -, -, hgone⟩ := destroy_locked_rep hq hf
    exact ⟨m1, h1, hq1, hfirst, hstop, hw, ht, hgone⟩
  · intro m hs
    exact ⟨_, acquire_exit hs, rfl, rfl, rfl, rfl, hs⟩
  · intro tr tr1 s s0 s1 l fuel hr hq hd hrun
    obtain ⟨l0, hi⟩ := reachable_inv hr
    have hl : l0 = l := queueRep_unique hi.rep hq
    subst hl
    have f := destroy_facts hi hd
    obtain ⟨hnil, hdisc, hstop0, -⟩ := f.on_destroy rfl
    obtain ⟨l2, g⟩ := run_facts f.inv hrun
    have hperm : List.Perm (s1.executed ++ inflight s1) (s.executed ++ inflight s) :=
      (g.no_start hstop0).trans (f.no_start (Or.inr (fun i h => by cases h)))
    refine ⟨g.stop_mono hstop0, hperm, ?_, ?_⟩
    · have h1 := hperm.length_eq
      have h2 := hi.ledger.length_eq
      simp only [List.length_append] at h1 h2
      omega
    · intro hn t ht hex
      obtain ⟨y, hy⟩ := g.discarded_mono
      have hnd := (List.Perm.nodup_iff g.inv.ledger).1 hn
      have htd : t ∈ s1.discarded := by
        rw [hy, hdisc]
        exact List.mem_append_left _ (List.mem_append_right _ ht)
      have hte : t ∈ s1.executed ++ inflight s1 ++ l2.map Prod.snd :=
        List.mem_append_left _ (List.mem_append_left _ hex)
      exact (List.nodup_append.1 hnd).2.2 hte htd

/-- C9: in every state reached from a freshly created pool by submissions,
worker steps, waits and the critical section of `tpool_destroy`, `working_cnt`
is the number of busy workers, `thread_cnt` the number of workers that have not
exited, and `working_cnt ≤ thread_cnt < 2 ^ 64`. A busy worker finds
`working_cnt` positive and an idle one finds `thread_cnt` positive, so every
step changes each counter by at most one without wrapping, and the bound holds
again after the step; `thread_cnt = 0` implies that no task is in flight. -/
theorem counters_stay_bounded (tr : List Event) (s : System) (hr : Reachable tr s) :
    s.mem.pool.working_cnt ≤ s.mem.pool.thread_cnt ∧
    s.mem.pool.thread_cnt < SIZE_MOD ∧
    s.mem.pool.working_cnt = busy s.workers ∧ s.mem.pool.thread_cnt = alive s.workers ∧
    (∀ i o, s.workers.get? i = some (Worker.running o) → 0 < s.mem.pool.working_cnt) ∧
    (∀ i, s.workers.get? i = some Worker.idle → 0 < s.mem.pool.thread_cnt) ∧
    (s.mem.pool.thread_cnt = 0 → s.mem.pool.working_cnt = 0 ∧ inflight s = []) ∧
    (∀ e s1, Event.admissible s e → s.step e = .ok s1 →
      s1.mem.pool.working_cnt ≤ s1.mem.pool.thread_cnt ∧
      s1.mem.pool.thread_cnt ≤ s.mem.pool.thread_cnt ∧
      s.mem.pool.thread_cnt ≤ s1.mem.pool.thread_cnt + 1 ∧
      s1.mem.pool.working_cnt ≤ s.mem.pool.working_cnt + 1 ∧
      s.mem.pool.working_cnt ≤ s1.mem.pool.working_cnt + 1) := by
  obtain ⟨l, hi⟩ := reachable_inv hr
  have hle : s.mem.pool.working_cnt ≤ s.mem.pool.thread_cnt := by
    rw [hi.busy_eq, hi.alive_eq]
    exact busy_le_alive _
  refine ⟨hle, ?_, hi.busy_eq, hi.alive_eq, ?_, ?_, ?_, ?_⟩
  · rw [hi.alive_eq]
    exact Nat.lt_of_le_of_lt (alive_le_length _) hi.bound
  · intro i o h
    rw [hi.busy_eq]
    exact busy_pos h
  · intro i h
    rw [hi.alive_eq]
    exact alive_pos_of_idle h
  · intro h0
    have hwc : s.mem.pool.working_cnt = 0 := by omega
    exact ⟨hwc, List.length_eq_zero.1 ((inflight_length_eq hi).trans hwc)⟩
  · intro e s1 ha hs
    obtain ⟨l1, f⟩ := step_facts hi ha hs
    refine ⟨?_, f.thread_cnt_step.1, f.thread_cnt_step.2, f.working_cnt_step.1,
      f.working_cnt_step.2⟩
    rw [f.inv.busy_eq, f.inv.alive_eq]
    exact busy_le_alive _

theorem finish_pool {work : Option Addr} {m m1 : Mem} {ran : Option Task}
    (h : tpool_worker_finish work m = .ok (ran, m1)) :
    m1.pool = { m.pool with working_cnt := size_dec m.pool.working_cnt } ∧
    (∀ b, some b ≠ work → m1.heap b = m.heap b) := by
  unfold tpool_worker_finish at h
  cases work with
  | none =>
    simp only [Except.ok.injEq, Prod.mk.injEq] at h
    obtain ⟨-, h⟩ := h
    subst h
    exact ⟨rfl, fun _ _ => rfl⟩
  | some w =>
    cases hn : m.heap w with
    | none => simp [hn] at h
    | some node =>
      simp only [hn, tpool_work_destroy, Except.ok.injEq, Prod.mk.injEq] at h
      obtain ⟨-, h⟩ := h
      subst h
      refine ⟨rfl, fun b hb => ?_⟩
      exact Function.update_noteq (fun e => hb (by rw [e])) _ _

theorem frozen_step {s s1 : System} {e : Event} (hstop : s.mem.pool.stop = true)
    (he : e.isWorkerOrWait = true) (hs : s.step e = .ok s1) :
    s1.mem.pool.stop = true ∧ s1.mem.pool.work_first = s.mem.pool.work_first ∧
      s1.mem.pool.work_last = s.mem.pool.work_last := by
  cases e with
  | submit func arg malloc => simp [Event.isWorkerOrWait] at he
  | destroy fuel => simp [Event.isWorkerOrWait] at he
  | wait =>
    simp only [System.step, wait_mem] at hs
    injection hs with hs
    subst hs
    exact ⟨hstop, rfl, rfl⟩
  | worker i =>
    simp only [System.step, System.work] at hs
    cases hg : s.workers.get? i with
    | none =>
      simp only [hg] at hs
      injection hs with hs
      subst hs
      exact ⟨hstop, rfl, rfl⟩
    | some w =>
      simp only [hg] at hs
      cases w with
      | exited =>
        simp only at hs
        injection hs with hs
        subst hs
        exact ⟨hstop, rfl, rfl⟩
      | idle =>
        simp only [acquire_exit hstop] at hs
        injection hs with hs
        subst hs
        exact ⟨hstop, rfl, rfl⟩
      | running work =>
        simp only at hs
        cases hfin : tpool_worker_finish work s.mem with
        | error err => simp [hfin] at hs
        | ok res =>
          obtain ⟨ran, m1⟩ := res
          simp only [hfin] at hs
          injection hs with hs
          subst hs
          obtain ⟨hp, -⟩ := finish_pool hfin
          show m1.pool.stop = true ∧ m1.pool.work_first = _ ∧ m1.pool.work_last = _
          rw [hp]
          exact ⟨hstop, rfl, rfl⟩

theorem frozen_run {s s1 : System} {tr : List Event} (hstop : s.mem.pool.stop = true)
    (hr : Run s tr s1) (he : ∀ e ∈ tr, Event.isWorkerOrWait e = true) :
    s1.mem.pool.stop = true ∧ s1.mem.pool.work_first = s.mem.pool.work_first ∧
      s1.mem.pool.work_last = s.mem.pool.work_last := by
  induction hr with
  | refl => exact ⟨hstop, rfl, rfl⟩
  | @step sa sb tr0 e _ _ hs ih =>
    obtain ⟨h1, h2, h3⟩ := ih (fun x hx => he x (List.mem_append_left _ hx))
    obtain ⟨g1, g2, g3⟩ := frozen_step h1 (he e (by simp)) hs
    exact ⟨g1, g2.trans h2, g3.trans h3⟩

theorem wait_blocked_of_queued {m : Mem} (h : m.pool.work_first ≠ none) :
    (tpool_wait .valid m).1 = .blocked := by
  cases hf : m.pool.work_first with
  | none => exact absurd hf h
  | some w => simp [tpool_wait, tpool_wait_cond, hf]

theorem destroy_step_stop {s s0 : System} {fuel : Nat}
    (h : s.step (.destroy fuel) = .ok s0) : s0.mem.pool.stop = true := by
  simp only [System.step, tpool_destroy_locked] at h
  cases hw : tpool_destroy_walk fuel s.mem.pool.work_first s.mem.heap with
  | error err => simp [hw] at h
  | ok h1 =>
    simp only [hw] at h
    injection h with h
    subst h
    rfl

theorem submit_step_queued {s s2 : System} {f : thread_func} {x : Arg} {malloc : Option Addr}
    (h : s.step (.submit (some f) x malloc) = .ok s2) :
    s2.mem.pool.work_first ≠ none ∧ s2.mem.pool.stop = s.mem.pool.stop ∧
      s2.submitted = s.submitted ++ [(f, x)] := by
  simp only [System.step, System.submit, tpool_add_work, tpool_work_create] at h
  cases malloc with
  | none => simp at h
  | some a =>
    simp only at h
    cases hf : s.mem.pool.work_first with
    | none =>
      simp only [hf] at h
      injection h with h
      subst h
      exact ⟨by simp, rfl, rfl⟩
    | some w =>
      simp only [hf] at h
      cases hl : s.mem.pool.work_last with
      | none => simp [hl] at h
      | some t =>
        simp only [hl] at h
        cases hn : Function.update s.mem.heap a (some ⟨f, x, none⟩) t with
        | none => simp [hn] at h
        | some node =>
          simp only [hn] at h
          injection h with h
          subst h
          exact ⟨by simp [hf], rfl, rfl⟩

/-- C10: with `stop` true an idle worker only leaves the loop (decrementing
`thread_cnt`) and a finishing worker only decrements `working_cnt` in the pool
object, so no worker step and no `tpool_wait` changes `work_first` or
`work_last`; in every state reached by such steps from a state with `stop` true
and a non-empty queue, the queue is the same and `tpool_wait` blocks. In
particular, after the critical section of `tpool_destroy` followed (possibly
after worker steps) by a successful `tpool_add_work`, `tpool_wait` blocks in
every state that worker steps and waits can reach. -/
theorem stopping_pool_never_drains :
    (∀ (m : Mem), m.pool.stop = true →
      tpool_worker_acquire m = .ok (.exited,
        { m with pool := { m.pool with thread_cnt := size_dec m.pool.thread_cnt } })) ∧
    (∀ (work : Option Addr) (m m1 : Mem) (ran : Option Task),
      tpool_worker_finish work m = .ok (ran, m1) →
      m1.pool = { m.pool with working_cnt := size_dec m.pool.working_cnt }) ∧
    (∀ (s s1 : System) (tr1 : List Event), s.mem.pool.stop = true →
      s.mem.pool.work_first ≠ none → Run s tr1 s1 →
      (∀ e ∈ tr1, Event.isWorkerOrWait e = true) →
      s1.mem.pool.stop = true ∧ s1.mem.pool.work_first = s.mem.pool.work_first ∧
      s1.mem.pool.work_last = s.mem.pool.work_last ∧
      (tpool_wait .valid s1.mem).1 = .blocked) ∧
    (∀ (tr tr1 : List Event) (s s1 : System) (l : List (Addr × Task)), Reachable tr s →
      s.mem.pool.stop = true → QueueRep s.mem l → Run s tr1 s1 →
      (∀ e ∈ tr1, Event.isWorkerOrWait e = true) →
      QueueRep s1.mem l ∧ s1.executed.length ≤ s.executed.length + (inflight s).length) ∧
    (∀ (s s0 s1 s2 s3 : System) (fuel : Nat) (f : thread_func) (x : Arg)
      (malloc : Option Addr) (tr0 tr1 : List Event),
      s.step (.destroy fuel) = .ok s0 → Run s0 tr0 s1 →
      (∀ e ∈ tr0, Event.isWorkerOrWait e = true) →
      s1.step (.submit (some f) x malloc) = .ok s2 → Run s2 tr1 s3 →
      (∀ e ∈ tr1, Event.isWorkerOrWait e = true) →
      s3.mem.pool.work_first ≠ none ∧ (tpool_wait .valid s3.mem).1 = .blocked) := by
  refine ⟨fun m hs => acquire_exit hs, fun work m m1 ran h => (finish_pool h).1, ?_, ?_, ?_⟩
  · intro s s1 tr1 hstop hq hr he
    obtain ⟨h1, h2, h3⟩ := frozen_run hstop hr he
    exact ⟨h1, h2, h3, wait_blocked_of_queued (by rw [h2]; exact hq)⟩
  · intro tr tr1 s s1 l hr hstop hq hrun he
    obtain ⟨l0, hi⟩ := reachable_inv hr
    have hl : l0 = l := queueRep_unique hi.rep hq
    subst hl
    obtain ⟨l1, g⟩ := run_facts hi hrun
    obtain ⟨hl1, -, -⟩ := g.frozen he hstop
    subst hl1
    refine ⟨g.inv.rep, ?_⟩
    have := (g.no_start hstop).length_eq
    simp only [List.length_append] at this
    omega
  · intro s s0 s1 s2 s3 fuel f x malloc tr0 tr1 hd hr0 he0 hsub hr1 he1
    have hstop0 := destroy_step_stop hd
    obtain ⟨hstop1, -, -⟩ := frozen_run hstop0 hr0 he0
    obtain ⟨hq2, hstop2, -⟩ := submit_step_queued hsub
    obtain ⟨-, hq3, -⟩ := frozen_run (hstop2.trans hstop1) hr1 he1
    have : s3.mem.pool.work_first ≠ none := by rw [hq3]; exact hq2
    exact ⟨this, wait_blocked_of_queued this⟩

/-! ## The theorems at concrete runs -/

theorem demo_reach0 : Reachable [] demo_sys0 :=
  ⟨2, demo_heap, demo_sys0, by decide, rfl, Run.refl _⟩

theorem demo_step01 : demo_sys0.step (.submit (some 7) 70 (some 1)) = .ok demo_sys1 := rfl

theorem demo_step12 : demo_sys1.step (.worker 0) = .ok demo_sys2 := rfl

theorem demo_step23 : demo_sys2.step (.worker 0) = .ok demo_sys3 := rfl

theorem demo_step14 : demo_sys1.step (.destroy 1) = .ok demo_sys4 := rfl

theorem demo_step45 : demo_sys4.step (.worker 0) = .ok demo_sys5 := rfl

theorem demo_step06 : demo_sys0.step (.destroy 0) = .ok demo_sys6 := rfl

theorem demo_step67 : demo_sys6.step (.submit (some 7) 70 (some 1)) = .ok demo_sys7 := rfl

theorem demo_step78 : demo_sys7.step (.worker 0) = .ok demo_sys8 := rfl

theorem demo_run01 : Run demo_sys0 [.submit (some 7) 70 (some 1)] demo_sys1 :=
  @Run.step _ _ _ _ (Event.submit (some 7) 70 (some 1)) (Run.refl _) rfl demo_step01

theorem demo_run03 :
    Run demo_sys0 [.submit (some 7) 70 (some 1), .worker 0, .worker 0] demo_sys3 :=
  @Run.step _ _ _ _ (Event.worker 0) (@Run.step _ _ _ _ (Event.worker 0) demo_run01 trivial demo_step12)
    trivial demo_step23

theorem demo_reach1 : Reachable [.submit (some 7) 70 (some 1)] demo_sys1 :=
  ⟨2, demo_heap, demo_sys0, by decide, rfl, demo_run01⟩

theorem demo_reach2 : Reachable [.submit (some 7) 70 (some 1), .worker 0] demo_sys2 :=
  ⟨2, demo_heap, demo_sys0, by decide, rfl,
    @Run.step _ _ _ _ (Event.worker 0) demo_run01 trivial demo_step12⟩

theorem demo_reach3 :
    Reachable [.submit (some 7) 70 (some 1), .worker 0, .worker 0] demo_sys3 :=
  ⟨2, demo_heap, demo_sys0, by decide, rfl, demo_run03⟩

theorem demo_run45 : Run demo_sys4 [.worker 0] demo_sys5 :=
  @Run.step _ _ _ _ (Event.worker 0) (Run.refl _) trivial demo_step45

theorem demo_run78 : Run demo_sys7 [.worker 0] demo_sys8 :=
  @Run.step _ _ _ _ (Event.worker 0) (Run.refl _) trivial demo_step78

theorem queueRep_demo_sys1 : QueueRep demo_sys1.mem [(1, (7, 70))] :=
  ⟨⟨rfl, trivial⟩, rfl, fun _ => rfl⟩

/-- One task submitted, taken by worker 0 and finished: it is executed once. -/
theorem every_task_runs_once_witness :
    Reachable [.submit (some 7) 70 (some 1), .worker 0, .worker 0] demo_sys3 ∧
    (∀ e ∈ [Event.submit (some 7) 70 (some 1), .worker 0, .worker 0],
      Event.isDestroy e = false) ∧
    ∃ l, QueueRep demo_sys3.mem l ∧
      demo_sys3.submitted
        = submissions [.submit (some 7) 70 (some 1), .worker 0, .worker 0] ∧
      List.Perm demo_sys3.submitted
        (demo_sys3.executed ++ inflight demo_sys3 ++ l.map Prod.snd) ∧
      (inflight demo_sys3).length = demo_sys3.mem.pool.working_cnt ∧
      (demo_sys3.submitted.Nodup →
        (demo_sys3.executed ++ inflight demo_sys3 ++ l.map Prod.snd).Nodup) ∧
      ((tpool_wait .valid demo_sys3.mem).1 = .returned →
        List.Perm demo_sys3.executed demo_sys3.submitted ∧
        demo_sys3.executed.length
          = (submissions [.submit (some 7) 70 (some 1), .worker 0, .worker 0]).length) :=
  ⟨demo_reach3, by decide,
    every_task_runs_once _ demo_sys3 demo_reach3 (by decide)⟩

/-- One task submitted and still queued when `tpool_destroy` runs: its node is
freed, worker 0 then leaves, and the task is never executed. -/
theorem destroy_discards_queue_witness :
    Reachable [.submit (some 7) 70 (some 1)] demo_sys1 ∧
    QueueRep demo_sys1.mem [(1, (7, 70))] ∧
    demo_sys1.step (.destroy 1) = .ok demo_sys4 ∧ Run demo_sys4 [.worker 0] demo_sys5 ∧
    (∃ m1, tpool_destroy_locked 1 demo_sys1.mem = .ok m1 ∧ QueueRep m1 [] ∧
        m1.pool.work_first = none ∧ m1.pool.stop = true ∧
        m1.pool.working_cnt = demo_sys1.mem.pool.working_cnt ∧
        m1.pool.thread_cnt = demo_sys1.mem.pool.thread_cnt ∧
        (∀ b ∈ [(1, ((7 : thread_func), (70 : Arg)))].map Prod.fst, m1.heap b = none)) ∧
    (demo_sys5.mem.pool.stop = true ∧
      List.Perm (demo_sys5.executed ++ inflight demo_sys5)
        (demo_sys1.executed ++ inflight demo_sys1) ∧
      demo_sys5.executed.length ≤ demo_sys1.submitted.length ∧
      (demo_sys5.submitted.Nodup →
        ∀ t ∈ [(1, ((7 : thread_func), (70 : Arg)))].map Prod.snd, t ∉ demo_sys5.executed)) :=
  ⟨demo_reach1, queueRep_demo_sys1, demo_step14, demo_run45,
    destroy_discards_queue.1 demo_sys1.mem [(1, (7, 70))] 1 queueRep_demo_sys1 (by decide),
    destroy_discards_queue.2.2 _ _ demo_sys1 demo_sys4 demo_sys5 [(1, (7, 70))] 1
      demo_reach1 queueRep_demo_sys1 demo_step14 demo_run45⟩

/-- With worker 0 busy on the only task: `working_cnt` is 1 and `thread_cnt` is 2. -/
theorem counters_stay_bounded_witness :
    Reachable [.submit (some 7) 70 (some 1), .worker 0] demo_sys2 ∧
    demo_sys2.mem.pool.working_cnt ≤ demo_sys2.mem.pool.thread_cnt ∧
    (∀ i o, demo_sys2.workers.get? i = some (Worker.running o) →
      0 < demo_sys2.mem.pool.working_cnt) :=
  ⟨demo_reach2, (counters_stay_bounded _ demo_sys2 demo_reach2).1,
    (counters_stay_bounded _ demo_sys2 demo_reach2).2.2.2.2.1⟩

/-- A task submitted right after the critical section of `tpool_destroy` on
the fresh pool: worker 0 leaves without taking it and `tpool_wait` blocks. -/
theorem stopping_pool_never_drains_witness :
    demo_sys0.step (.destroy 0) = .ok demo_sys6 ∧ Run demo_sys6 [] demo_sys6 ∧
    demo_sys6.step (.submit (some 7) 70 (some 1)) = .ok demo_sys7 ∧
    Run demo_sys7 [.worker 0] demo_sys8 ∧
    (demo_sys8.mem.pool.stop = true ∧
      demo_sys8.mem.pool.work_first = demo_sys7.mem.pool.work_first ∧
      demo_sys8.mem.pool.work_last = demo_sys7.mem.pool.work_last ∧
      (tpool_wait .valid demo_sys8.mem).1 = .blocked) ∧
    (demo_sys8.mem.pool.work_first ≠ none ∧
      (tpool_wait .valid demo_sys8.mem).1 = .blocked) :=
  ⟨demo_step06, Run.refl _, demo_step67, demo_run78,
    stopping_pool_never_drains.2.2.1 demo_sys7 demo_sys8 [.worker 0] rfl (by decide)
      demo_run78 (by decide),
    stopping_pool_never_drains.2.2.2.2 demo_sys0 demo_sys6 demo_sys6 demo_sys7 demo_sys8 0 7 70
      (some 1) [] [.worker 0] demo_step06 (Run.refl _) (by decide) demo_step67 demo_run78
      (by decide)⟩

end Tpool
